import Mathlib

/-!
# Verification of `hyperopt_utils.py`

Shallow embedding of the source file
`Agent/tutorials/hyperopt_tutorial_files/hyperopt_utils.py` of the HEBO
repository, together with theorems checking its natural-language
specification against the code.

Modelling conventions:

* Python strings are modelled as `List Char` internally, with `String`
  wrappers mirroring the Python signatures.
* A Python `assert` failure or raised exception is modelled by
  `Except.error`; a normal return by `Except.ok`.  A function that raises
  produces no partial output, exactly like the exception model.
* Python `dict`s are modelled by insertion-ordered association lists
  (`List (String × Value)`), reflecting the insertion-order iteration of
  Python 3.7+ dictionaries.
* Python `set` membership (`seen_args`) is modelled by a `List String`
  used only through `∈`.
* The fixed regular expression
  `r'(\s([?,.!"]))|(?<=\[|\()(.*?)(?=\)|\])'` used with
  `lambda x: x.group().strip()` is modelled by a direct implementation of
  its matching semantics on this one pattern (`cosmeticAux`).
* Python float literals are modelled as scaled decimal numbers
  (`Value.VFloat m s` denotes `m · 10^-(s+1)`); for the short decimal
  literals occurring here, Python's shortest-round-trip `str` agrees with
  the decimal rendering.
-/

namespace HyperoptUtils

/-- The whitespace characters of Python's `\s` regex class and of
`str.strip()` with no argument. -/
def isPySpace (c : Char) : Bool :=
  c = ' ' || c = '\t' || c = '\n' || c = '\r' || c = '\x0b' || c = '\x0c'

/-- Python `str.strip()`: remove leading and trailing whitespace. -/
def pyStrip (s : List Char) : List Char :=
  ((s.dropWhile isPySpace).reverse.dropWhile isPySpace).reverse

/-- The character class `[?,.!"]` of the cosmetic regular expression. -/
def isPunctClass (c : Char) : Bool :=
  c = '?' || c = ',' || c = '.' || c = '!' || c = '"'

/-- The lookbehind class `(?<=\[|\()` of the cosmetic regular expression. -/
def isOpenBracket (c : Char) : Bool := c = '[' || c = '('

/-- The lookahead class `(?=\)|\])` of the cosmetic regular expression. -/
def isCloseBracket (c : Char) : Bool := c = ')' || c = ']'

def headIsPunct : List Char → Bool
  | p :: _ => isPunctClass p
  | [] => false

def prevIsOpen : Option Char → Bool
  | some b => isOpenBracket b
  | none => false

/-- Scan for the first `)` or `]`, failing at a newline (the regex `.`
does not cross newlines) or at end of input.  Returns the characters
before the closing bracket and the remainder beginning with it (the lazy
`(.*?)(?=\)|\])` match and the rest of the line). -/
def splitAtCloser : List Char → Option (List Char × List Char)
  | [] => none
  | c :: cs =>
    if isCloseBracket c then some ([], c :: cs)
    else if c = '\n' then none
    else
      match splitAtCloser cs with
      | some (before, rest) => some (c :: before, rest)
      | none => none

/-- Matching semantics of
`re.sub(r'(\s([?,.!"]))|(?<=\[|\()(.*?)(?=\)|\])', lambda x: x.group().strip(), line)`
for this fixed pattern: scan left to right carrying the previous character
(for the lookbehind); at each position try the first alternative (a
whitespace character followed by one of `?,.!"`, replaced by its stripped
form, i.e. the punctuation alone), then the second (just after `[` or `(`,
lazily up to the first `)` or `]`, the matched span replaced by its
stripped form; an empty match is replaced by the empty string and the
scan advances one character).  Fuel-based; each step consumes at least
one character, so `cosmeticLine` supplies sufficient fuel. -/
def cosmeticAux : Nat → Option Char → List Char → List Char
  | 0, _, rest => rest
  | _ + 1, _, [] => []
  | fuel + 1, prev, c :: cs =>
    if isPySpace c && headIsPunct cs then
      match cs with
      | p :: cs' => p :: cosmeticAux fuel (some p) cs'
      | [] => [c]
    else if prevIsOpen prev then
      match splitAtCloser (c :: cs) with
      | some ([], _) => c :: cosmeticAux fuel (some c) cs
      | some (b :: before, rest) =>
          pyStrip (b :: before) ++ cosmeticAux fuel (b :: before).getLast? rest
      | none => c :: cosmeticAux fuel (some c) cs
    else c :: cosmeticAux fuel (some c) cs

/-- The cosmetic whitespace normalization applied to each physical line. -/
def cosmeticLine (s : List Char) : List Char :=
  cosmeticAux s.length none s

/-- Python `str.count` for a single-character pattern. -/
def countChar (c : Char) (s : List Char) : Nat := s.countP (· = c)

/-- Python `code.split("\n")`: split at every newline, keeping empty
pieces (so a trailing newline yields a trailing empty line). -/
def splitLines : List Char → List (List Char)
  | [] => [[]]
  | c :: cs =>
    if c = '\n' then [] :: splitLines cs
    else
      match splitLines cs with
      | l :: ls => (c :: l) :: ls
      | [] => [[c]]

/-- The loop of `convert_to_single_line_blocks`: walk the physical lines
carrying the running paren delta `n_diff` and the accumulated block; fail
when the delta goes negative after a line or is nonzero at end of input. -/
def convertLoop (ndiff : Int) (newBlock : List Char) :
    List (List Char) → Except String (List (List Char))
  | [] =>
    if ndiff = 0 then Except.ok [] else Except.error "assert n_diff == 0"
  | line :: rest =>
    let d : Int := ndiff + (countChar '(' line : Int) - (countChar ')' line : Int)
    if d < 0 then Except.error "assert n_diff >= 0"
    else
      let nb := newBlock ++ cosmeticLine line
      if d = 0 then
        match convertLoop 0 [] rest with
        | Except.ok bs => Except.ok (nb :: bs)
        | Except.error e => Except.error e
      else convertLoop d nb rest

/-- `convert_to_single_line_blocks` on character lists. -/
def convertBlocks (code : List Char) : Except String (List (List Char)) :=
  convertLoop 0 [] (splitLines code)

/-- `convert_to_single_line_blocks(code)`: remove multi-line expressions
from code and output the list of single-line expressions; `assert`
failures on unbalanced input are modelled by `Except.error`. -/
def convert_to_single_line_blocks (code : String) : Except String (List String) :=
  match convertBlocks code.toList with
  | Except.ok bs => Except.ok (bs.map String.mk)
  | Except.error e => Except.error e

/-- The dictionary `{p[0]: p[1] for p in ["()", "{}", "[]", "''", '""']}`;
`none` models a `KeyError`. -/
def pairsLookup (c : Char) : Option Char :=
  if c = '(' then some ')'
  else if c = '{' then some '}'
  else if c = '[' then some ']'
  else if c = '\'' then some '\''
  else if c = '"' then some '"'
  else none

/-- The scan loop of `find_matching_parenthesis`: `i` is the absolute
index of the head of the remaining characters, `nopen` the current count
of unclosed openers.  Python decrements and returns when the count
reaches zero; falling off the end raises `IndexError`. -/
def fmpLoop (ptype matching : Char) :
    List Char → Nat → Nat → Except String Nat
  | [], _, _ => Except.error "IndexError: no matching parenthesis"
  | c :: cs, i, nopen =>
    if c = ptype then fmpLoop ptype matching cs (i + 1) (nopen + 1)
    else if c = matching then
      if nopen = 1 then Except.ok i
      else fmpLoop ptype matching cs (i + 1) (nopen - 1)
    else fmpLoop ptype matching cs (i + 1) nopen

/-- `find_matching_parenthesis(line, start_ind, parenthesis_type, matching)`:
index of the closing delimiter matching the opening delimiter at
`start_ind`.  The Python `assert`, the `KeyError` on an unknown delimiter
type, and the final `IndexError` are all modelled by `Except.error`. -/
def find_matching_parenthesis (line : List Char) (start_ind : Nat)
    (ptype : Char) (matching : Option Char) : Except String Nat :=
  match line.get? start_ind with
  | none => Except.error "IndexError: string index out of range"
  | some c =>
    if c = ptype then
      match (match matching with | some m => some m | none => pairsLookup ptype) with
      | none => Except.error "KeyError"
      | some m => fmpLoop ptype m (line.drop (start_ind + 1)) (start_ind + 1) 1
    else Except.error "assert line[start_ind] == parenthesis_type"

/-- Python literal values, as produced by `ast.literal_eval` on the literal
expressions this module supports.  Floats are modelled as scaled decimals:
`VFloat m s` denotes `m · 10^-(s+1)` (so at least one digit follows the
decimal point), matching Python's shortest-round-trip `str` on the short
decimal literals this module handles. -/
inductive Value where
  | VInt : Int → Value
  | VFloat : Int → Nat → Value
  | VStr : List Char → Value
  | VBool : Bool → Value
  | VNone : Value
  | VList : List Value → Value
  | VTuple : List Value → Value
  | VDict : List (Value × Value) → Value

instance : Inhabited Value := ⟨Value.VNone⟩

/-- Decimal digits of a natural number, most significant first;
fuel-based so that it reduces definitionally (`n` itself bounds the
number of divisions by ten). -/
def natDigitsAux : Nat → Nat → List Char
  | 0, _ => []
  | fuel + 1, n =>
    if n < 10 then [Char.ofNat (48 + n)]
    else natDigitsAux fuel (n / 10) ++ [Char.ofNat (48 + n % 10)]

def natDigits (n : Nat) : List Char := natDigitsAux (n + 1) n

/-- Python `str` of an `int`. -/
def intToChars (i : Int) : List Char :=
  if i < 0 then '-' :: natDigits i.natAbs else natDigits i.natAbs

/-- Python `str` of the float `m · 10^-(s+1)`: the decimal digits of `m`
padded to at least `s+2` digits, with the decimal point inserted before
the last `s+1` of them. -/
def floatChars (m : Int) (s : Nat) : List Char :=
  let ds := natDigits m.natAbs
  let pad := List.replicate (s + 2 - ds.length) '0' ++ ds
  (if m < 0 then ['-'] else []) ++
    pad.take (pad.length - (s + 1)) ++ '.' :: pad.drop (pad.length - (s + 1))

/-- Quote character chosen by Python `repr` for a string: single quotes
unless the string contains a single quote and no double quote. -/
def strQuote (s : List Char) : Char :=
  if s.contains '\'' && !(s.contains '"') then '"' else '\''

/-- Python `repr` escaping of string contents for the chosen quote
character: backslash and the quote are backslash-escaped, newline,
carriage return and tab become `\n`, `\r`, `\t`; other characters pass
through (the non-printable `\xNN` escapes of CPython are outside the
character ranges exercised here). -/
def escapeStr (q : Char) (s : List Char) : List Char :=
  s.foldr (fun c acc =>
    if c = '\\' || c = q then '\\' :: c :: acc
    else if c = '\n' then '\\' :: 'n' :: acc
    else if c = '\r' then '\\' :: 'r' :: acc
    else if c = '\t' then '\\' :: 't' :: acc
    else c :: acc) []

mutual

/-- Python `str` of a value (equal to `repr` for every non-`str` type the
module handles, and used on nested strings inside containers, where
Python renders the `repr`). -/
def pyRepr : Value → List Char
  | .VInt i => intToChars i
  | .VFloat m s => floatChars m s
  | .VStr s => strQuote s :: escapeStr (strQuote s) s ++ [strQuote s]
  | .VBool true => 'T' :: 'r' :: 'u' :: ['e']
  | .VBool false => 'F' :: 'a' :: 'l' :: 's' :: ['e']
  | .VNone => 'N' :: 'o' :: 'n' :: ['e']
  | .VList vs => '[' :: pyReprElems vs ++ [']']
  | .VTuple [] => '(' :: [')']
  | .VTuple [v] => '(' :: pyRepr v ++ ',' :: [')']
  | .VTuple (v :: w :: vs) => '(' :: pyReprElems (v :: w :: vs) ++ [')']
  | .VDict ps => '{' :: pyReprPairs ps ++ ['}']

/-- Comma-separated rendering of container elements. -/
def pyReprElems : List Value → List Char
  | [] => []
  | [v] => pyRepr v
  | v :: w :: vs => pyRepr v ++ ',' :: ' ' :: pyReprElems (w :: vs)

/-- `key: value` comma-separated rendering of dict items. -/
def pyReprPairs : List (Value × Value) → List Char
  | [] => []
  | [(k, v)] => pyRepr k ++ ':' :: ' ' :: pyRepr v
  | (k, v) :: p :: ps => pyRepr k ++ ':' :: ' ' :: pyRepr v ++ ',' :: ' ' :: pyReprPairs (p :: ps)

end

/-- The inner helper `parse_arg` of `transform_args`: a string value is
hand-wrapped in single quotes (with no escaping); any other value is
returned unchanged and rendered by the enclosing f-string via `str`. -/
def parse_arg : Value → List Char
  | .VStr s => '\'' :: s ++ ['\'']
  | v => pyRepr v

/-- A parsed argument: a positional identifier or a `(name, value)`
keyword pair (`List Union[Tuple[str, Any], str]` in the source). -/
abbrev Arg := Sum (List Char) (List Char × Value)

/-- First loop of `transform_args`: walk the parsed arguments in order,
building the output string and the `seen_args` set (a list used only
through membership). -/
def transformLoop1 (map_args : List (List Char × Value)) :
    List Arg → List Char → List (List Char) → List Char × List (List Char)
  | [], out, seen => (out, seen)
  | Sum.inl a :: rest, out, seen =>
    transformLoop1 map_args rest (out ++ a ++ ',' :: [' ']) seen
  | Sum.inr (k, v) :: rest, out, seen =>
    match List.lookup k map_args with
    | none => transformLoop1 map_args rest (out ++ k ++ '=' :: parse_arg v ++ ',' :: [' ']) seen
    | some w => transformLoop1 map_args rest (out ++ k ++ '=' :: parse_arg w ++ ',' :: [' ']) (k :: seen)

/-- Second loop of `transform_args`: append every mapping entry whose
name was not marked seen. -/
def transformLoop2 (seen : List (List Char)) :
    List (List Char × Value) → List Char → List Char
  | [], out => out
  | (k, v) :: rest, out =>
    if k ∈ seen then transformLoop2 seen rest out
    else transformLoop2 seen rest (out ++ k ++ '=' :: parse_arg v ++ ',' :: [' '])

/-- The final `if output[-2:] == ", ": output = output[:-2]`. -/
def stripTrailingSep (out : List Char) : List Char :=
  if (out.reverse.take 2) = [' ', ','] then out.dropLast.dropLast else out

/-- `transform_args(args, map_args)`: string of argument assignments in
original order with overrides applied, unseen mapping entries appended,
and the trailing `", "` stripped. -/
def transform_args (args : List Arg) (map_args : List (List Char × Value)) : List Char :=
  match transformLoop1 map_args args [] [] with
  | (out, seen) => stripTrailingSep (transformLoop2 seen map_args out)

/-- Skip whitespace between tokens. -/
def skipWs (cs : List Char) : List Char := cs.dropWhile isPySpace

def isIdentStart (c : Char) : Bool := c.isAlpha || c = '_'

def isIdentChar (c : Char) : Bool := c.isAlphanum || c = '_'

/-- Take a leading identifier, returning it and the remainder. -/
def takeIdent : List Char → Option (List Char × List Char)
  | [] => none
  | c :: rest =>
    if isIdentStart c then some (c :: rest.takeWhile isIdentChar, rest.dropWhile isIdentChar)
    else none

def takeDigits (cs : List Char) : List Char × List Char :=
  (cs.takeWhile Char.isDigit, cs.dropWhile Char.isDigit)

def digitsToNat (ds : List Char) : Nat :=
  ds.foldl (fun acc c => acc * 10 + (c.toNat - 48)) 0

/-- Modelled from the spec: the numeric-literal part of the out-of-scope
literal-expression parser (`ast.literal_eval` collaborator): an optional
minus sign, digits, and an optional fractional part (exponent forms are
outside the literal shapes this module handles). -/
def parseNumber (cs : List Char) : Option (Value × List Char) :=
  let sign : Bool := decide (cs.head? = some '-')
  let cs1 := if sign then cs.tail else cs
  let ds := cs1.takeWhile Char.isDigit
  let cs2 := cs1.dropWhile Char.isDigit
  if ds.isEmpty then none
  else if cs2.head? = some '.' then
    let fs := cs2.tail.takeWhile Char.isDigit
    let cs4 := cs2.tail.dropWhile Char.isDigit
    if fs.isEmpty then
      some (.VFloat (Int.ofNat (digitsToNat ds * 10) * (if sign then -1 else 1)) 0, cs4)
    else
      some (.VFloat
        (Int.ofNat (digitsToNat ds * 10 ^ fs.length + digitsToNat fs) *
          (if sign then -1 else 1)) (fs.length - 1), cs4)
  else some (.VInt (Int.ofNat (digitsToNat ds) * (if sign then -1 else 1)), cs2)

/-- Inverse of `escapeStr`'s escape sequences. -/
def unescape (c : Char) : List Char :=
  if c = '\\' || c = '\'' || c = '"' then [c]
  else if c = 'n' then ['\n']
  else if c = 'r' then ['\r']
  else if c = 't' then ['\t']
  else '\\' :: [c]

/-- Modelled from the spec: string-literal contents up to the closing
quote `q`, resolving backslash escapes; a raw newline or carriage return
ends the source line and fails the parse. -/
def parseStrContent (q : Char) : List Char → Option (List Char × List Char)
  | [] => none
  | c :: rest =>
    if c = '\\' then
      match rest with
      | [] => none
      | e :: rest2 =>
        match parseStrContent q rest2 with
        | some (s, r) => some (unescape e ++ s, r)
        | none => none
    else if c = q then some ([], rest)
    else if c = '\n' || c = '\r' then none
    else
      match parseStrContent q rest with
      | some (s, r) => some (c :: s, r)
      | none => none

mutual

/-- Modelled from the spec: the out-of-scope "literal-expression
parser/evaluator" collaborator (`ast.parse` + `ast.literal_eval`): parse
one literal expression (number, string, list, mapping, tuple, boolean,
None) and return its value and the remaining input; anything else —
a call, a variable reference — fails.  Fuel-based: every recursive call
consumes a character first, so fuel exceeding the input length never
runs out. -/
def parseLit : Nat → List Char → Option (Value × List Char)
  | 0, _ => none
  | fuel + 1, cs =>
    match skipWs cs with
    | [] => none
    | c :: rest =>
      if c = '\'' || c = '"' then
        match parseStrContent c rest with
        | some (s, r) => some (.VStr s, r)
        | none => none
      else if c = '[' then
        match parseElems fuel ']' rest with
        | some (vs, r) => some (.VList vs, r)
        | none => none
      else if c = '{' then
        match parseDict fuel rest with
        | some (ps, r) => some (.VDict ps, r)
        | none => none
      else if c = '(' then
        parseTuple fuel rest
      else if c = '-' || c.isDigit then
        parseNumber (c :: rest)
      else
        match takeIdent (c :: rest) with
        | some (id, r) =>
          if id = 'T' :: 'r' :: 'u' :: ['e'] then some (.VBool true, r)
          else if id = 'F' :: 'a' :: 'l' :: 's' :: ['e'] then some (.VBool false, r)
          else if id = 'N' :: 'o' :: 'n' :: ['e'] then some (.VNone, r)
          else none
        | none => none

/-- Comma-separated literals up to the closing delimiter `close`
(consumed); a trailing comma before the delimiter is allowed. -/
def parseElems : Nat → Char → List Char → Option (List Value × List Char)
  | 0, _, _ => none
  | fuel + 1, close, cs =>
    match skipWs cs with
    | [] => none
    | c :: rest =>
      if c = close then some ([], rest)
      else
        match parseLit fuel (c :: rest) with
        | some (v, r) =>
          match skipWs r with
          | [] => none
          | c2 :: r2 =>
            if c2 = ',' then
              match parseElems fuel close r2 with
              | some (vs, rr) => some (v :: vs, rr)
              | none => none
            else if c2 = close then some ([v], r2)
            else none
        | none => none

/-- `key: value` dict items up to the closing brace (consumed). -/
def parseDict : Nat → List Char → Option (List (Value × Value) × List Char)
  | 0, _ => none
  | fuel + 1, cs =>
    match skipWs cs with
    | [] => none
    | c :: rest =>
      if c = '}' then some ([], rest)
      else
        match parseLit fuel (c :: rest) with
        | some (k, r) =>
          match skipWs r with
          | [] => none
          | c2 :: r2 =>
            if c2 = ':' then
              match parseLit fuel r2 with
              | some (v, r3) =>
                match skipWs r3 with
                | [] => none
                | c3 :: r4 =>
                  if c3 = ',' then
                    match parseDict fuel r4 with
                    | some (ps, rr) => some ((k, v) :: ps, rr)
                    | none => none
                  else if c3 = '}' then some ([(k, v)], r4)
                  else none
              | none => none
            else none
        | none => none

/-- Contents of a parenthesized literal after the opening `(`: the empty
tuple, a parenthesized literal (not a tuple), or a comma-separated
tuple. -/
def parseTuple : Nat → List Char → Option (Value × List Char)
  | 0, _ => none
  | fuel + 1, cs =>
    match skipWs cs with
    | [] => none
    | c :: rest =>
      if c = ')' then some (.VTuple [], rest)
      else
        match parseLit fuel (c :: rest) with
        | some (v, r) =>
          match skipWs r with
          | [] => none
          | c2 :: r2 =>
            if c2 = ')' then some (v, r2)
            else if c2 = ',' then
              match parseElems fuel ')' r2 with
              | some (vs, rr) => some (.VTuple (v :: vs), rr)
              | none => none
            else none
        | none => none

end

/-- Modelled from the spec: the argument list of a call expression, as
the structured-expression parser sees it: identifiers are positional
argument names, `name=literal` pairs are keyword arguments, and the
closing parenthesis (consumed) ends the list.  A positional argument
that is not a simple identifier, or a keyword value that is not a
literal expression, fails the parse. -/
def parseCallArgs : Nat → List Char → Option (List Arg × List Char)
  | 0, _ => none
  | fuel + 1, cs =>
    match skipWs cs with
    | [] => none
    | c :: rest =>
      if c = ')' then some ([], rest)
      else
        match takeIdent (c :: rest) with
        | some (id, r) =>
          match skipWs r with
          | [] => none
          | c2 :: r2 =>
            if c2 = '=' then
              match parseLit fuel r2 with
              | some (v, r3) =>
                match skipWs r3 with
                | [] => none
                | c3 :: r4 =>
                  if c3 = ',' then
                    match parseCallArgs fuel r4 with
                    | some (args, rr) => some (Sum.inr (id, v) :: args, rr)
                    | none => none
                  else if c3 = ')' then some ([Sum.inr (id, v)], r4)
                  else none
              | none => none
            else if c2 = ',' then
              match parseCallArgs fuel r2 with
              | some (args, rr) => some (Sum.inl id :: args, rr)
              | none => none
            else if c2 = ')' then some ([Sum.inl id], r2)
            else none
        | none => none

/-- `parse_function_call(func_call_str)`: extract positional and keyword
arguments from a string corresponding to a function call.  The
`ast.parse`/`ast.literal_eval` collaborators are modelled from the spec
(see `parseLit`/`parseCallArgs`); any raised `SyntaxError`,
`AttributeError` or `ValueError` is modelled by `Except.error`. -/
def parse_function_call (s : List Char) : Except String (List Arg) :=
  match takeIdent (skipWs s) with
  | none => Except.error "SyntaxError: not a function call"
  | some (_fname, r) =>
    match skipWs r with
    | c :: r2 =>
      if c = '(' then
        match parseCallArgs (r2.length + 1) r2 with
        | some (args, rest) =>
          if (skipWs rest).isEmpty then Except.ok args
          else Except.error "SyntaxError: trailing input after call"
        | none => Except.error "ValueError: malformed node or argument"
      else Except.error "SyntaxError: not a function call"
    | [] => Except.error "SyntaxError: not a function call"

/-- Python `line.find(pattern)`, `none` standing for `-1`. -/
def findSubAux (pat : List Char) : List Char → Nat → Option Nat
  | [], i => if pat.isPrefixOf ([] : List Char) then some i else none
  | c :: t, i => if pat.isPrefixOf (c :: t) then some i else findSubAux pat t (i + 1)

def findSub (s pat : List Char) : Option Nat := findSubAux pat s 0

/-- Python `line[a:b]`. -/
def slice (s : List Char) (a b : Nat) : List Char := (s.take b).drop a

/-- The body of the inner `for function in space` loop of
`assign_hyperopt` for a single target function: find the first occurrence
of `function(`, locate its matching closing parenthesis, parse the call,
rewrite the arguments, and splice the result back into the line. -/
def processFunction (line : List Char) (function : List Char)
    (params : List (List Char × Value)) : Except String (List Char) :=
  match findSub line (function ++ ['(']) with
  | none => Except.ok line
  | some ind =>
    match find_matching_parenthesis line (ind + (function ++ ['(']).length - 1) '(' none with
    | Except.error e => Except.error e
    | Except.ok end_ind =>
      match parse_function_call (slice line ind (end_ind + 1)) with
      | Except.error e => Except.error e
      | Except.ok args =>
        Except.ok (line.take ind ++ (function ++ ['(']) ++
          transform_args args params ++ line.drop end_ind)

/-- One logical statement pushed through every target function in space
order (the `arguments` dictionary rebuilt by `assign_hyperopt` is an
entry-for-entry copy of `space`, so the per-function sub-mapping is
passed directly). -/
def processLine : List (List Char × List (List Char × Value)) →
    List Char → Except String (List Char)
  | [], line => Except.ok line
  | (f, params) :: rest, line =>
    match processFunction line f params with
    | Except.ok line2 => processLine rest line2
    | Except.error e => Except.error e

/-- The statement loop of `assign_hyperopt`: each processed statement is
emitted newline-terminated. -/
def assignBlocks (space : List (List Char × List (List Char × Value))) :
    List (List Char) → Except String (List Char)
  | [] => Except.ok []
  | b :: rest =>
    match processLine space b with
    | Except.ok line2 =>
      match assignBlocks space rest with
      | Except.ok out => Except.ok (line2 ++ '\n' :: out)
      | Except.error e => Except.error e
    | Except.error e => Except.error e

/-- `assign_hyperopt(code, space)`: the top-level transform (`inject` of
the specification): segment the code, rewrite the call of every target
function of the parameter space in each statement, and reassemble one
statement per newline-terminated line. -/
def assign_hyperopt (code : String) (space : List (String × List (String × Value))) :
    Except String String :=
  let spaceL := space.map fun fp =>
    (fp.1.toList, fp.2.map fun kv => (kv.1.toList, kv.2))
  match convertBlocks code.toList with
  | Except.error e => Except.error e
  | Except.ok blocks =>
    match assignBlocks spaceL blocks with
    | Except.ok out => Except.ok (String.mk out)
    | Except.error e => Except.error e

/-- A string is syntactically a valid call's argument list when `f(` the
string `)` parses as a call: the argument-list parser consumes it up to
exactly the final closing parenthesis. -/
def isValidArgList (s : List Char) : Bool :=
  (parse_function_call ('f' :: '(' :: s ++ [')'])).isOk

/-- The paren contribution of one physical line: `count("(") - count(")")`. -/
def lineDelta (line : List Char) : Int :=
  (countChar '(' line : Int) - (countChar ')' line : Int)

/-- Following the spec's §4.1 delta: starting from `d`, add each physical
line's bracket delta; `false` as soon as the running delta goes negative
after a line, and at end of input unless the delta is exactly zero. -/
def deltasOk (d : Int) : List (List Char) → Bool
  | [] => d = 0
  | line :: rest =>
    let d2 := d + lineDelta line
    if d2 < 0 then false else deltasOk d2 rest

/-- The keyword-argument names of a parsed argument list, in order. -/
def kwNames (args : List Arg) : List (List Char) :=
  args.filterMap fun a =>
    match a with
    | Sum.inr kv => some kv.1
    | Sum.inl _ => none

/-- What the specification says one original argument contributes: a
positional argument passes through; a keyword argument whose name is in
the override mapping is emitted with the mapping's value in place of the
original; each contribution carries its `", "` separator. -/
def specEmit (m : List (List Char × Value)) : Arg → List Char
  | Sum.inl p => p ++ ',' :: [' ']
  | Sum.inr (k, v) =>
    match List.lookup k m with
    | some w => k ++ '=' :: parse_arg w ++ ',' :: [' ']
    | none => k ++ '=' :: parse_arg v ++ ',' :: [' ']

/-- What one appended override-mapping entry contributes. -/
def specAppendPiece (kv : List Char × Value) : List Char :=
  kv.1 ++ '=' :: parse_arg kv.2 ++ ',' :: [' ']

/-- `rewrite_args` as the specification words it: walk the original
arguments in order, emitting each as `specEmit` does; then append every
override-mapping entry whose name did not occur among the original
keyword names; finally strip the trailing `", "`. -/
def rewrite_args_spec (args : List Arg) (m : List (List Char × Value)) : List Char :=
  stripTrailingSep ((args.map (specEmit m)).flatten ++
    ((m.filter fun kv => !(decide (kv.1 ∈ kwNames args))).map specAppendPiece).flatten)

/-- The contents of the `seen_args` set after the first loop of
`transform_args`: the names of the keyword arguments that are keys of the
override mapping, most recently seen first. -/
def specSeen (m : List (List Char × Value)) (args : List Arg) : List (List Char) :=
  (args.filterMap fun a =>
    match a with
    | Sum.inr kv => if (List.lookup kv.1 m).isSome then some kv.1 else none
    | Sum.inl _ => none).reverse

/-- A (nonempty) simple identifier. -/
def isIdent : List Char → Bool
  | [] => false
  | c :: cs => isIdentStart c && cs.all isIdentChar

/-- A value survives the unescaped single-quote wrapping of `parse_arg`:
a string-typed value must contain no single quote, backslash, newline or
carriage return; every other value is rendered by `pyRepr`, which
escapes. -/
def topStrOk : Value → Bool
  | .VStr s => !(s.contains '\'') && !(s.contains '\\') && !(s.contains '\n') && !(s.contains '\r')
  | _ => true

/-- A wellformed parsed argument: a positional identifier, or a keyword
whose name is an identifier and whose value survives `parse_arg`. -/
def argOk : Arg → Bool
  | Sum.inl p => isIdent p
  | Sum.inr (k, v) => isIdent k && topStrOk v

/-- The textual piece `transform_args` emits for one argument (before the
`", "` separator). -/
def pieceOf : Arg → List Char
  | Sum.inl p => p
  | Sum.inr (k, v) => k ++ '=' :: parse_arg v

mutual

/-- Fuel sufficient for `parseLit` to consume `pyRepr v` (bounded by its
length, see `fuelNeed_le_repr`). -/
def fuelNeed : Value → Nat
  | .VList vs => 1 + fuelNeedElems vs
  | .VTuple [] => 2
  | .VTuple [v] => 2 + max (fuelNeed v) 1
  | .VTuple (v :: w :: vs) => 2 + max (fuelNeed v) (fuelNeedElems (w :: vs))
  | .VDict ps => 1 + fuelNeedPairs ps
  | _ => 1

def fuelNeedElems : List Value → Nat
  | [] => 1
  | v :: vs => 1 + max (fuelNeed v) (fuelNeedElems vs)

def fuelNeedPairs : List (Value × Value) → Nat
  | [] => 1
  | (k, v) :: ps => 1 + max (max (fuelNeed k) (fuelNeed v)) (fuelNeedPairs ps)

end

/-- `true` when the remaining input after a rendered literal begins with
one of the delimiter characters a literal may precede (or is empty), so
that maximal-munch token readers stop exactly at the literal's end. -/
def stopperOk : List Char → Bool
  | [] => true
  | c :: _ => c = ',' || c = ')' || c = ']' || c = '}' || c = ':'

/-- Pieces joined by the `", "` separator (the shape of a rewritten
argument list). -/
def sepJoin : List (List Char) → List Char
  | [] => []
  | [p] => p
  | p :: q :: ps => p ++ ',' :: ' ' :: sepJoin (q :: ps)

/-- The arguments `transform_args` actually emits, as parsed arguments:
the originals with overridden keyword values substituted, followed by the
appended mapping entries. -/
def effectiveArgs (args : List Arg) (m : List (List Char × Value)) : List Arg :=
  (args.map fun a =>
    match a with
    | Sum.inl p => Sum.inl p
    | Sum.inr (k, v) =>
      match List.lookup k m with
      | some w => Sum.inr (k, w)
      | none => Sum.inr (k, v)) ++
  ((m.filter fun kv => !(decide (kv.1 ∈ kwNames args))).map fun kv => Sum.inr kv)

/-- Whether a value is string-typed (the `isinstance(arg_, str)` test of
`parse_arg`). -/
def isStrVal : Value → Bool
  | .VStr _ => true
  | _ => false

/-! ## Theorems -/

/-- When the opening and closing delimiter are the same character (the
quote pairs), the decrement branch of the scan loop is unreachable —
every occurrence of the character takes the increment branch first — so
the loop always falls off the end of the string. -/
theorem fmpLoop_self_error (q : Char) :
    ∀ (cs : List Char) (i n : Nat),
      fmpLoop q q cs i n = Except.error "IndexError: no matching parenthesis" := by
  intro cs
  induction cs with
  | nil => intro i n; rfl
  | cons c cs ih =>
    intro i n
    by_cases h : c = q
    · simp [fmpLoop, h, ih]
    · simp [fmpLoop, h, ih]

/-- C3.  The claim says `match_delimiter` on a quote delimiter returns
the index of the matching closing quote; in the code the `elif` decrement
branch is unreachable for identical open/close characters, so the
function never succeeds on quote delimiters.  Concretely, `"'a'"` with
the opening quote at index 0 has its closing quote at index 2, yet the
call raises `IndexError`; and for every input the single- and
double-quote cases fail. -/
theorem claim_C3 :
    (find_matching_parenthesis ('\'' :: 'a' :: ['\'']) 0 '\'' none =
      Except.error "IndexError: no matching parenthesis") ∧
    (('\'' :: 'a' :: ['\'']).get? 2 = some '\'') ∧
    (∀ (line : List Char) (i : Nat),
      (find_matching_parenthesis line i '\'' none).isOk = false ∧
      (find_matching_parenthesis line i '"' none).isOk = false) := by
  refine ⟨rfl, rfl, fun line i => ⟨?_, ?_⟩⟩
  · unfold find_matching_parenthesis
    match h : line.get? i with
    | none => rfl
    | some c =>
      by_cases hc : c = '\''
      · simp [hc, pairsLookup, fmpLoop_self_error, Except.isOk, Except.toBool]
      · simp [hc, Except.isOk, Except.toBool]
  · unfold find_matching_parenthesis
    match h : line.get? i with
    | none => rfl
    | some c =>
      by_cases hc : c = '"'
      · simp [hc, pairsLookup, fmpLoop_self_error, Except.isOk, Except.toBool]
      · simp [hc, Except.isOk, Except.toBool]

/-- C1 counterexample: on `"model = build(lr=0.1)\n"` with space
`{"build": {"lr": 0.01, "momentum": 0.9}}`, `inject` does NOT return
exactly `"model = build(lr=0.01, momentum=0.9)\n"` — the trailing newline
of the input produces an empty final block and hence an extra newline. -/
theorem claim_C1_counterexample :
    assign_hyperopt "model = build(lr=0.1)\n"
        [("build", [("lr", Value.VFloat 1 1), ("momentum", Value.VFloat 9 0)])] ≠
      Except.ok "model = build(lr=0.01, momentum=0.9)\n" := by
  intro h
  rw [show assign_hyperopt "model = build(lr=0.1)\n"
        [("build", [("lr", Value.VFloat 1 1), ("momentum", Value.VFloat 9 0)])] =
      Except.ok "model = build(lr=0.01, momentum=0.9)\n\n" from rfl] at h
  simp only [Except.ok.injEq] at h
  exact absurd h (by decide)

/-- C1 amended: the call returns the claimed string followed by one extra
newline: the existing `lr` keyword is overridden to 0.01 and `momentum`
is appended, and the trailing newline of the input contributes an empty
final statement emitted as an empty line. -/
theorem claim_C1 :
    assign_hyperopt "model = build(lr=0.1)\n"
        [("build", [("lr", Value.VFloat 1 1), ("momentum", Value.VFloat 9 0)])] =
      Except.ok "model = build(lr=0.01, momentum=0.9)\n\n" := rfl

/-- C7.  `parse_call("f(x, y, c=\x7b'k': '1'\x7d, a=[1,2])")` returns the
positional identifiers `x`, `y` followed by the keyword pairs
`("c", {"k": "1"})` and `("a", [1, 2])` in source order. -/
theorem claim_C7 :
    parse_function_call "f(x, y, c=\x7b'k': '1'\x7d, a=[1,2])".toList =
      Except.ok [Sum.inl "x".toList, Sum.inl "y".toList,
        Sum.inr ("c".toList, Value.VDict [(Value.VStr "k".toList, Value.VStr "1".toList)]),
        Sum.inr ("a".toList, Value.VList [Value.VInt 1, Value.VInt 2])] := rfl

/-- C8.  `parse_call` fails when a keyword value is a call or a variable
reference, and accepts literal numbers, strings, lists, mappings, tuples,
booleans and `None`. -/
theorem claim_C8 :
    ((parse_function_call "f(a=g(1))".toList).isOk = false) ∧
    ((parse_function_call "f(a=x)".toList).isOk = false) ∧
    (parse_function_call "f(a=1)".toList = Except.ok [Sum.inr ("a".toList, Value.VInt 1)]) ∧
    (parse_function_call "f(a=0.5)".toList =
      Except.ok [Sum.inr ("a".toList, Value.VFloat 5 0)]) ∧
    (parse_function_call "f(a='s')".toList =
      Except.ok [Sum.inr ("a".toList, Value.VStr "s".toList)]) ∧
    (parse_function_call "f(a=[1, 2])".toList =
      Except.ok [Sum.inr ("a".toList, Value.VList [Value.VInt 1, Value.VInt 2])]) ∧
    (parse_function_call "f(a=\x7b'k': 1\x7d)".toList =
      Except.ok [Sum.inr ("a".toList, Value.VDict [(Value.VStr "k".toList, Value.VInt 1)])]) ∧
    (parse_function_call "f(a=(1, 2))".toList =
      Except.ok [Sum.inr ("a".toList, Value.VTuple [Value.VInt 1, Value.VInt 2])]) ∧
    (parse_function_call "f(a=True, b=False)".toList =
      Except.ok [Sum.inr ("a".toList, Value.VBool true),
        Sum.inr ("b".toList, Value.VBool false)]) ∧
    (parse_function_call "f(a=None)".toList =
      Except.ok [Sum.inr ("a".toList, Value.VNone)]) :=
  ⟨rfl, rfl, rfl, rfl, rfl, rfl, rfl, rfl, rfl, rfl⟩

/-- C9.  The segmenter's balance count is purely character-based: on
`x = ")"` — a balanced, syntactically valid program whose only `)` sits
inside a string literal — the counted delta of the single line is `-1`,
so `segment` fails fatally instead of returning the statement. -/
theorem claim_C9 :
    convert_to_single_line_blocks "x = \")\"" = Except.error "assert n_diff >= 0" ∧
    lineDelta "x = \")\"".toList = -1 := ⟨rfl, rfl⟩

/-- C10.  `rewrite_args` on an empty argument list and empty override
mapping returns the empty string: the trailing-separator strip is a no-op
on empty output. -/
theorem claim_C10 : transform_args [] [] = ([] : List Char) := rfl

/-- C5 counterexample: the claim fails in two ways.  With space
`{"h": {"p": 1}}` (so `g` is not a target), the call text `g( 1 )` does
occur in the input but its text in the output is `g(1)` — the cosmetic
normalization altered it, so the output does not contain the original
call text.  And with space `{"build": {"lr": 2}}`, the call to the
non-target name `xbuild` is argument-rewritten to `xbuild(lr=2)`,
because `line.find("build(")` matches inside the longer identifier. -/
theorem claim_C5_counterexample :
    (assign_hyperopt "g( 1 )" [("h", [("p", Value.VInt 1)])] = Except.ok "g(1)\n") ∧
    (findSub "g( 1 )".toList "g( 1 )".toList = some 0) ∧
    (findSub "g(1)\n".toList "g( 1 )".toList = none) ∧
    (assign_hyperopt "xbuild(lr=1)" [("build", [("lr", Value.VInt 2)])] =
      Except.ok "xbuild(lr=2)\n") := ⟨rfl, rfl, rfl, rfl⟩

/-- C5 amended: a statement in which the pattern `function(` occurs
textually for no function name of the parameter space passes the
rewriting stage unchanged.  Both parts of the hypothesis are needed: the
counterexample shows a non-target call whose text is changed by the
cosmetic normalization, and a non-target call rewritten because a target
pattern occurs inside its longer name. -/
theorem claim_C5 :
    ∀ (space : List (List Char × List (List Char × Value))) (line : List Char),
      space.all (fun fp => (findSub line (fp.1 ++ ['('])).isNone) = true →
      processLine space line = Except.ok line := by
  intro space
  induction space with
  | nil => intro line _h; rfl
  | cons fp rest ih =>
    intro line h
    obtain ⟨f, params⟩ := fp
    simp only [List.all_cons, Bool.and_eq_true] at h
    have h1 : findSub line (f ++ ['(']) = none := by
      rcases h with ⟨h1, _⟩
      exact Option.isNone_iff_eq_none.mp h1
    have hpf : processFunction line f params = Except.ok line := by
      unfold processFunction
      rw [h1]
    have step : processLine ((f, params) :: rest) line = processLine rest line := by
      show (match processFunction line f params with
            | Except.ok line2 => processLine rest line2
            | Except.error e => Except.error e) = processLine rest line
      rw [hpf]
    rw [step]
    exact ih line h.2

/-- Witness for the amended C5 at a concrete input. -/
theorem claim_C5_witness :
    ([(('h' :: ([] : List Char)), ([] : List (List Char × Value)))].all
      (fun fp => (findSub "g(1)".toList (fp.1 ++ ['('])).isNone) = true) ∧
    processLine [('h' :: [], [])] "g(1)".toList = Except.ok "g(1)".toList :=
  ⟨rfl, claim_C5 [('h' :: [], [])] "g(1)".toList rfl⟩

/-- The first loop of `transform_args` builds exactly the in-order
emissions of the specification and the `seen_args` set `specSeen`. -/
theorem transformLoop1_eq (m : List (List Char × Value)) :
    ∀ (args : List Arg) (out : List Char) (seen : List (List Char)),
      transformLoop1 m args out seen =
        (out ++ (args.map (specEmit m)).flatten, specSeen m args ++ seen) := by
  intro args
  induction args with
  | nil => intro out seen; simp [transformLoop1, specSeen]
  | cons a rest ih =>
    intro out seen
    obtain p | ⟨k, v⟩ := a
    · simp only [transformLoop1, ih, specSeen, List.filterMap_cons, List.map_cons,
        List.flatten_cons, specEmit, List.append_assoc]
    · cases hl : List.lookup k m with
      | none =>
        simp only [transformLoop1, hl, ih, specSeen, List.filterMap_cons, List.map_cons,
          List.flatten_cons, specEmit, List.append_assoc, Option.isSome_none,
          Bool.false_eq_true, if_false]
      | some w =>
        simp only [transformLoop1, hl, ih, specSeen, List.filterMap_cons, List.map_cons,
          List.flatten_cons, specEmit, List.append_assoc, Option.isSome_some, if_true,
          List.reverse_cons, List.singleton_append]

/-- The second loop of `transform_args` appends exactly the mapping
entries whose key is not in `seen`. -/
theorem transformLoop2_eq (seen : List (List Char)) :
    ∀ (m2 : List (List Char × Value)) (out : List Char),
      transformLoop2 seen m2 out =
        out ++ ((m2.filter fun kv => !(decide (kv.1 ∈ seen))).map specAppendPiece).flatten := by
  intro m2
  induction m2 with
  | nil => intro out; simp [transformLoop2]
  | cons kv rest ih =>
    intro out
    obtain ⟨k, v⟩ := kv
    by_cases hk : k ∈ seen
    · simp [transformLoop2, hk, ih]
    · simp [transformLoop2, hk, ih, specAppendPiece, List.append_assoc]

/-- A key that occurs in an association list has a successful lookup. -/
theorem lookup_isSome_of_mem (k : List Char) (v : Value) :
    ∀ (m : List (List Char × Value)), (k, v) ∈ m → (List.lookup k m).isSome = true := by
  intro m
  induction m with
  | nil => intro h; simp at h
  | cons kv rest ih =>
    intro h
    obtain ⟨k1, v1⟩ := kv
    rcases List.mem_cons.mp h with h1 | h2
    · obtain ⟨rfl, rfl⟩ := Prod.mk.injEq .. ▸ h1
      simp [List.lookup]
    · cases hb : (k == k1) with
      | true => simp [List.lookup, hb]
      | false => simpa [List.lookup, hb] using ih h2

/-- Membership in the final `seen_args` set. -/
theorem mem_specSeen_iff (m : List (List Char × Value)) (args : List Arg) (k : List Char) :
    k ∈ specSeen m args ↔
      ∃ v, Sum.inr (k, v) ∈ args ∧ (List.lookup k m).isSome = true := by
  unfold specSeen
  rw [List.mem_reverse, List.mem_filterMap]
  constructor
  · rintro ⟨a, ha, hfa⟩
    obtain p | ⟨k1, v1⟩ := a
    · simp at hfa
    · by_cases hs : (List.lookup k1 m).isSome = true
      · simp only [hs, if_true, Option.some.injEq] at hfa
        subst hfa
        exact ⟨v1, ha, hs⟩
      · simp [hs] at hfa
  · rintro ⟨v, hv, hs⟩
    exact ⟨Sum.inr (k, v), hv, by simp [hs]⟩

/-- Membership among the original keyword names. -/
theorem mem_kwNames_iff (args : List Arg) (k : List Char) :
    k ∈ kwNames args ↔ ∃ v, Sum.inr (k, v) ∈ args := by
  unfold kwNames
  rw [List.mem_filterMap]
  constructor
  · rintro ⟨a, ha, hfa⟩
    obtain p | ⟨k1, v1⟩ := a
    · simp at hfa
    · simp only [Option.some.injEq] at hfa
      subst hfa
      exact ⟨v1, ha⟩
  · rintro ⟨v, hv⟩
    exact ⟨Sum.inr (k, v), hv, rfl⟩

/-- For entries of the override mapping itself, exclusion by the final
`seen_args` set coincides with exclusion by the original keyword names. -/
theorem filter_seen_eq (args : List Arg) (m : List (List Char × Value)) :
    (m.filter fun kv => !(decide (kv.1 ∈ specSeen m args))) =
      (m.filter fun kv => !(decide (kv.1 ∈ kwNames args))) := by
  apply List.filter_congr
  intro kv hkv
  obtain ⟨k, v⟩ := kv
  have hiff : (k ∈ specSeen m args) ↔ k ∈ kwNames args := by
    rw [mem_specSeen_iff, mem_kwNames_iff]
    constructor
    · rintro ⟨w, hw, _⟩; exact ⟨w, hw⟩
    · rintro ⟨w, hw⟩; exact ⟨w, hw, lookup_isSome_of_mem k v m hkv⟩
  exact congrArg Bool.not (decide_eq_decide.mpr hiff)

/-- C2.  `rewrite_args` emits the original arguments in order with
overridden keyword values substituted, appends every mapping entry whose
name did not occur among the original keyword names, and strips the
trailing separator — for every argument list and mapping it coincides
with the specification-side `rewrite_args_spec`; and on
`(["x", ("lr", 0.1)], {"lr": 0.01, "momentum": 0.9})` it yields
`"x, lr=0.01, momentum=0.9"`. -/
theorem claim_C2 :
    (∀ (args : List Arg) (m : List (List Char × Value)),
      transform_args args m = rewrite_args_spec args m) ∧
    transform_args [Sum.inl "x".toList, Sum.inr ("lr".toList, Value.VFloat 1 0)]
        [("lr".toList, Value.VFloat 1 1), ("momentum".toList, Value.VFloat 9 0)] =
      "x, lr=0.01, momentum=0.9".toList := by
  constructor
  · intro args m
    show (match transformLoop1 m args [] [] with
          | (out, seen) => stripTrailingSep (transformLoop2 seen m out)) =
        rewrite_args_spec args m
    rw [transformLoop1_eq]
    show stripTrailingSep
        (transformLoop2 (specSeen m args ++ []) m ([] ++ (args.map (specEmit m)).flatten)) =
      rewrite_args_spec args m
    rw [List.append_nil, List.nil_append, transformLoop2_eq, filter_seen_eq]
    rfl
  · rfl

/-- The segmenter loop succeeds exactly when the running line-level delta
never goes negative and ends at zero. -/
theorem convertLoop_isOk : ∀ (lines : List (List Char)) (d : Int) (nb : List Char),
    (convertLoop d nb lines).isOk = deltasOk d lines := by
  intro lines
  induction lines with
  | nil =>
    intro d nb
    by_cases hd : d = 0 <;> simp [convertLoop, deltasOk, hd, Except.isOk, Except.toBool]
  | cons line rest ih =>
    intro d nb
    have heq : d + (countChar '(' line : Int) - (countChar ')' line : Int) =
        d + lineDelta line := by
      unfold lineDelta; ring
    simp only [convertLoop, deltasOk, heq]
    by_cases h1 : d + lineDelta line < 0
    · simp [h1, Except.isOk, Except.toBool]
    · simp only [h1, if_false]
      by_cases h2 : d + lineDelta line = 0
      · simp only [h2, if_pos rfl]
        cases hrec : convertLoop 0 [] rest with
        | ok bs =>
          have := ih 0 []
          rw [hrec] at this
          simp only [h2] at this ⊢
          simp [Except.isOk, Except.toBool, ← this]
        | error e =>
          have := ih 0 []
          rw [hrec] at this
          simp only [h2] at this ⊢
          simp [Except.isOk, Except.toBool, ← this]
      · simp only [if_neg h2]
        exact ih _ _

/-- In the success case nothing is lost or reordered: the concatenation
of the returned blocks is the concatenation of the normalized physical
lines (and an empty line list returns no blocks). -/
theorem convertLoop_flatten : ∀ (lines : List (List Char)) (d : Int) (nb : List Char)
    (bs : List (List Char)), convertLoop d nb lines = Except.ok bs →
    (lines = [] → bs = []) ∧
    (lines ≠ [] → bs.flatten = nb ++ (lines.map cosmeticLine).flatten) := by
  intro lines
  induction lines with
  | nil =>
    intro d nb bs h
    refine ⟨fun _ => ?_, fun hne => absurd rfl hne⟩
    simp only [convertLoop] at h
    by_cases hd : d = 0
    · rw [if_pos hd] at h
      exact (Except.ok.inj h).symm
    · rw [if_neg hd] at h
      exact absurd h (by simp)
  | cons line rest ih =>
    intro d nb bs h
    refine ⟨fun hc => by simp at hc, fun _ => ?_⟩
    simp only [convertLoop] at h
    by_cases h1 : d + (countChar '(' line : Int) - (countChar ')' line : Int) < 0
    · rw [if_pos h1] at h
      exact absurd h (by simp)
    · rw [if_neg h1] at h
      by_cases h2 : d + (countChar '(' line : Int) - (countChar ')' line : Int) = 0
      · rw [if_pos h2] at h
        cases hrec : convertLoop 0 [] rest with
        | ok bs2 =>
          rw [hrec] at h
          have hbs : bs = (nb ++ cosmeticLine line) :: bs2 := (Except.ok.inj h).symm
          subst hbs
          cases rest with
          | nil =>
            have hb2 : bs2 = [] := (ih 0 [] bs2 hrec).1 rfl
            subst hb2
            simp
          | cons r rs =>
            have hb2 := (ih 0 [] bs2 hrec).2 (by simp)
            simp only [List.flatten_cons, hb2, List.nil_append, List.map_cons,
              List.append_assoc]
        | error e =>
          rw [hrec] at h
          exact absurd h (by simp)
      · rw [if_neg h2] at h
        cases rest with
        | nil =>
          simp only [convertLoop] at h
          rw [if_neg h2] at h
          exact absurd h (by simp)
        | cons r rs =>
          have hb := (ih _ _ bs h).2 (by simp)
          simp only [hb, List.map_cons, List.flatten_cons, List.append_assoc]

/-- `splitLines` always returns at least one (possibly empty) line. -/
theorem splitLines_ne_nil : ∀ (cs : List Char), splitLines cs ≠ [] := by
  intro cs
  cases cs with
  | nil => simp [splitLines]
  | cons c cs2 =>
    by_cases h : c = '\n'
    · simp [splitLines, h]
    · simp only [splitLines, if_neg h]
      cases hs : splitLines cs2 <;> simp

/-- C4.  `segment` fails fatally — producing no output at all — exactly
on the inputs whose running delta (each physical line's `(`-minus-`)`
count added in turn, the granularity at which the spec defines the delta)
goes negative after some line or is nonzero at end of input; on all other
inputs it succeeds, and the blocks it returns carry every normalized
physical line, in order. -/
theorem claim_C4 : ∀ (code : String),
    ((convert_to_single_line_blocks code).isOk = deltasOk 0 (splitLines code.toList)) ∧
    (∀ bs, convertBlocks code.toList = Except.ok bs →
      bs.flatten = ((splitLines code.toList).map cosmeticLine).flatten) := by
  intro code
  constructor
  · have hsame : (convert_to_single_line_blocks code).isOk = (convertBlocks code.toList).isOk := by
      unfold convert_to_single_line_blocks
      cases h : convertBlocks code.toList <;> simp [Except.isOk, Except.toBool]
    rw [hsame]
    exact convertLoop_isOk (splitLines code.toList) 0 []
  · intro bs h
    have h2 := (convertLoop_flatten (splitLines code.toList) 0 [] bs h).2
      (splitLines_ne_nil code.toList)
    simpa using h2

/-- Witness for C4 at the concrete input `"f(\nx)"`, whose two physical
lines form one balanced logical statement. -/
theorem claim_C4_witness :
    ((convert_to_single_line_blocks "f(\nx)").isOk = deltasOk 0 (splitLines "f(\nx)".toList)) ∧
    (["f(x)".toList] : List (List Char)).flatten =
      ((splitLines "f(\nx)".toList).map cosmeticLine).flatten :=
  ⟨(claim_C4 "f(\nx)").1, (claim_C4 "f(\nx)").2 ["f(x)".toList] rfl⟩

/-! ### Utility lemmas for the literal-parser development -/

theorem takeWhile_all_append (p : Char → Bool) :
    ∀ (l1 l2 : List Char), l1.all p = true →
      (∀ c, l2.head? = some c → p c = false) →
      (l1 ++ l2).takeWhile p = l1 ∧ (l1 ++ l2).dropWhile p = l2 := by
  intro l1
  induction l1 with
  | nil =>
    intro l2 _ hh
    cases l2 with
    | nil => simp
    | cons c t =>
      have hc := hh c rfl
      simp [List.takeWhile_cons, List.dropWhile_cons, hc]
  | cons a l ih =>
    intro l2 h hh
    simp only [List.all_cons, Bool.and_eq_true] at h
    have h2 := ih l2 h.2 hh
    simp [List.takeWhile_cons, List.dropWhile_cons, h.1, h2.1, h2.2]

theorem skipWs_cons_of_not_space (c : Char) (X : List Char) (h : isPySpace c = false) :
    skipWs (c :: X) = c :: X := by
  simp [skipWs, List.dropWhile_cons, h]

theorem skipWs_cons_space (X : List Char) : skipWs (' ' :: X) = skipWs X := by
  simp [skipWs, List.dropWhile_cons, show isPySpace ' ' = true from rfl]

theorem digitChar_isDigit (k : Nat) (h : k < 10) : (Char.ofNat (48 + k)).isDigit = true := by
  interval_cases k <;> decide

theorem natDigitsAux_all_digit : ∀ (fuel n : Nat), (natDigitsAux fuel n).all Char.isDigit = true := by
  intro fuel
  induction fuel with
  | zero => intro n; rfl
  | succ f ih =>
    intro n
    by_cases h : n < 10
    · simp [natDigitsAux, h, digitChar_isDigit n h]
    · have h2 : n % 10 < 10 := Nat.mod_lt _ (by omega)
      simp [natDigitsAux, h, List.all_append, ih, digitChar_isDigit _ h2]

theorem natDigits_all_digit (n : Nat) : (natDigits n).all Char.isDigit = true :=
  natDigitsAux_all_digit (n + 1) n

theorem natDigits_ne_nil (n : Nat) : natDigits n ≠ [] := by
  unfold natDigits natDigitsAux
  by_cases h : n < 10 <;> simp [h]

/-- Round trip of the string-content escaping through the string-content
parser, for any quote character the renderer chooses. -/
theorem parseStrContent_escape (q : Char) (hq : q = '\'' ∨ q = '"') :
    ∀ (s rest : List Char),
      parseStrContent q (escapeStr q s ++ q :: rest) = some (s, rest) := by
  have hqb : ¬(q = '\\') := by rcases hq with h | h <;> subst h <;> decide
  intro s
  induction s with
  | nil =>
    intro rest
    show parseStrContent q (q :: rest) = some ([], rest)
    rw [parseStrContent.eq_def]
    simp [hqb]
  | cons c s2 ih =>
    intro rest
    show parseStrContent q
        ((if c = '\\' || c = q then '\\' :: c :: escapeStr q s2
          else if c = '\n' then '\\' :: 'n' :: escapeStr q s2
          else if c = '\r' then '\\' :: 'r' :: escapeStr q s2
          else if c = '\t' then '\\' :: 't' :: escapeStr q s2
          else c :: escapeStr q s2) ++ q :: rest) = some (c :: s2, rest)
    by_cases h1 : (c = '\\' || c = q) = true
    · have hu : unescape c = [c] := by
        rcases Bool.or_eq_true_iff.mp h1 with h | h
        · simp only [decide_eq_true_eq] at h
          subst h; rfl
        · simp only [decide_eq_true_eq] at h
          subst h
          rcases hq with h2 | h2 <;> subst h2 <;> rfl
      simp only [h1, if_true, List.cons_append]
      rw [parseStrContent.eq_def]
      simp [ih, hu]
    · simp only [h1, if_false]
      by_cases h2 : c = '\n'
      · subst h2
        simp only [if_pos rfl, List.cons_append]
        rw [parseStrContent.eq_def]
        simp [ih, unescape]
      · simp only [h2, if_false]
        by_cases h3 : c = '\r'
        · subst h3
          simp only [if_pos rfl, List.cons_append]
          rw [parseStrContent.eq_def]
          simp [ih, unescape]
        · simp only [h3, if_false]
          by_cases h4 : c = '\t'
          · subst h4
            simp only [if_pos rfl, List.cons_append]
            rw [parseStrContent.eq_def]
            simp [ih, unescape]
          · simp only [h4, if_false, List.cons_append]
            obtain ⟨hcb, hcq⟩ : ¬(c = '\\') ∧ ¬(c = q) := by simpa using h1
            rw [parseStrContent.eq_def]
            simp [hcb, hcq, h2, h3, ih]

/-- A string free of quotes, backslash, newline and carriage return is
parsed back verbatim by the string-content parser. -/
theorem parseStrContent_plain (q : Char) (hq : q = '\'' ∨ q = '"') :
    ∀ (s rest : List Char),
      s.all (fun c => !(c = q) && !(c = '\\') && !(c = '\n') && !(c = '\r')) = true →
      parseStrContent q (s ++ q :: rest) = some (s, rest) := by
  have hqb : ¬(q = '\\') := by rcases hq with h | h <;> subst h <;> decide
  intro s
  induction s with
  | nil =>
    intro rest _
    show parseStrContent q (q :: rest) = some ([], rest)
    rw [parseStrContent.eq_def]
    simp [hqb]
  | cons c s2 ih =>
    intro rest h
    rw [List.all_cons, Bool.and_eq_true] at h
    obtain ⟨hc, hs2⟩ := h
    simp only [Bool.and_eq_true, Bool.not_eq_true', decide_eq_false_iff_not] at hc
    obtain ⟨⟨⟨hcq, hcb⟩, hn⟩, hr⟩ := hc
    rw [List.cons_append, parseStrContent.eq_def]
    simp [hcb, hcq, hn, hr, ih rest hs2]

theorem parseLit_cons_space (fuel : Nat) (X : List Char) :
    parseLit fuel (' ' :: X) = parseLit fuel X := by
  cases fuel with
  | zero => rfl
  | succ f =>
    rw [parseLit.eq_2, parseLit.eq_2, skipWs_cons_space]

theorem parseElems_cons_space (fuel : Nat) (close : Char) (X : List Char) :
    parseElems fuel close (' ' :: X) = parseElems fuel close X := by
  cases fuel with
  | zero => rfl
  | succ f =>
    rw [parseElems.eq_2, parseElems.eq_2, skipWs_cons_space]

theorem parseDict_cons_space (fuel : Nat) (X : List Char) :
    parseDict fuel (' ' :: X) = parseDict fuel X := by
  cases fuel with
  | zero => rfl
  | succ f =>
    rw [parseDict.eq_2, parseDict.eq_2, skipWs_cons_space]

theorem parseCallArgs_cons_space (fuel : Nat) (X : List Char) :
    parseCallArgs fuel (' ' :: X) = parseCallArgs fuel X := by
  cases fuel with
  | zero => rfl
  | succ f =>
    rw [parseCallArgs.eq_2, parseCallArgs.eq_2, skipWs_cons_space]

/-- Characters a rendered literal may legitimately stop in front of are
neither digits, whitespace, identifier characters, a dot, nor a minus. -/
theorem stopper_facts (rest : List Char) (h : stopperOk rest = true) :
    ∀ c, rest.head? = some c →
      Char.isDigit c = false ∧ isPySpace c = false ∧ isIdentChar c = false ∧
      ¬(c = '.') ∧ ¬(c = '-') := by
  cases rest with
  | nil => intro c hc; simp at hc
  | cons d t =>
    intro c hc
    simp only [List.head?_cons, Option.some.injEq] at hc
    subst hc
    simp only [stopperOk] at h
    have hd : (((d = ',' ∨ d = ')') ∨ d = ']') ∨ d = '}') ∨ d = ':' := by simpa using h
    rcases hd with (((h1 | h1) | h1) | h1) | h1 <;> subst h1 <;>
      exact ⟨by decide, by decide, by decide, by decide, by decide⟩

theorem natDigits_isEmpty_false (n : Nat) : (natDigits n).isEmpty = false := by
  cases hn : natDigits n with
  | nil => exact absurd hn (natDigits_ne_nil n)
  | cons d t => rfl

/-- The numeric parser consumes a rendered integer exactly and stops at
the following delimiter. -/
theorem parseNumber_intToChars (i : Int) (rest : List Char) (h : stopperOk rest = true) :
    ∃ w, parseNumber (intToChars i ++ rest) = some (w, rest) := by
  have hr := stopper_facts rest h
  have hdig := natDigits_all_digit i.natAbs
  have hnil := natDigits_ne_nil i.natAbs
  have htd := takeWhile_all_append Char.isDigit (natDigits i.natAbs) rest hdig
    (fun c hc => (hr c hc).1)
  have hdot : ¬(rest.head? = some '.') := by
    intro hh
    cases rest with
    | nil => simp at hh
    | cons d t =>
      simp only [List.head?_cons, Option.some.injEq] at hh
      exact (hr d rfl).2.2.2.1 hh
  have hsgn : (decide ((some '-' : Option Char) = some '-')) = true := by decide
  by_cases hneg : i < 0
  · exact ⟨_, by
      rw [intToChars, if_pos hneg]
      simp only [parseNumber, List.cons_append, List.head?_cons, List.tail_cons, hsgn,
        if_true, decide_True]
      rw [htd.1, htd.2]
      simp only [natDigits_isEmpty_false, Bool.false_eq_true, if_false]
      rw [if_neg hdot]⟩
  · obtain ⟨d0, nd2, hnd⟩ : ∃ d0 nd2, natDigits i.natAbs = d0 :: nd2 := by
      cases hh : natDigits i.natAbs with
      | nil => exact absurd hh hnil
      | cons a b => exact ⟨a, b, rfl⟩
    have hd0 : d0.isDigit = true := by
      rw [hnd, List.all_cons, Bool.and_eq_true] at hdig
      exact hdig.1
    have hd0m : (decide ((some d0 : Option Char) = some '-')) = false := by
      simp only [decide_eq_false_iff_not, Option.some.injEq]
      intro hh; rw [hh] at hd0; simp at hd0
    exact ⟨_, by
      rw [intToChars, if_neg hneg]
      simp only [parseNumber]
      rw [hnd]
      simp only [List.cons_append, List.head?_cons, hd0m, Bool.false_eq_true, if_false]
      rw [show d0 :: (nd2 ++ rest) = (d0 :: nd2) ++ rest from rfl, ← hnd, htd.1, htd.2]
      simp only [natDigits_isEmpty_false, Bool.false_eq_true, if_false]
      rw [if_neg hdot]⟩

/-- The numeric parser consumes a rendered float exactly and stops at the
following delimiter. -/
theorem parseNumber_floatChars (m : Int) (s : Nat) (rest : List Char)
    (h : stopperOk rest = true) :
    ∃ w, parseNumber (floatChars m s ++ rest) = some (w, rest) := by
  have hr := stopper_facts rest h
  set ds := natDigits m.natAbs with hds
  set pad := List.replicate (s + 2 - ds.length) '0' ++ ds with hpad
  have hpadall : pad.all Char.isDigit = true := by
    rw [hpad, List.all_append]
    refine Bool.and_eq_true_iff.mpr ⟨?_, natDigits_all_digit m.natAbs⟩
    simp only [List.all_eq_true]
    intro c hc
    rw [List.eq_of_mem_replicate hc]
    decide
  have hdnil : ds ≠ [] := natDigits_ne_nil m.natAbs
  have hdlen : 1 ≤ ds.length := by
    cases hh : ds with
    | nil => exact absurd hh hdnil
    | cons a b => simp [hh]
  have hplen : s + 2 ≤ pad.length := by
    rw [hpad, List.length_append, List.length_replicate]
    omega
  set ip := pad.take (pad.length - (s + 1)) with hip
  set fp := pad.drop (pad.length - (s + 1)) with hfp
  have hipall : ip.all Char.isDigit = true := by
    simp only [List.all_eq_true] at hpadall ⊢
    intro c hc
    exact hpadall c (List.mem_of_mem_take hc)
  have hfpall : fp.all Char.isDigit = true := by
    simp only [List.all_eq_true] at hpadall ⊢
    intro c hc
    exact hpadall c (List.mem_of_mem_drop hc)
  have hiplen : 1 ≤ ip.length := by
    rw [hip, List.length_take]
    omega
  obtain ⟨d0, ip2, hipc⟩ : ∃ d0 ip2, ip = d0 :: ip2 := by
    cases hh : ip with
    | nil => rw [hh] at hiplen; simp at hiplen
    | cons a b => exact ⟨a, b, rfl⟩
  have hd0 : d0.isDigit = true := by
    rw [hipc, List.all_cons, Bool.and_eq_true] at hipall
    exact hipall.1
  have hd0m : (decide ((some d0 : Option Char) = some '-')) = false := by
    simp only [decide_eq_false_iff_not, Option.some.injEq]
    intro hh; rw [hh] at hd0; simp at hd0
  have hipall2 : ip.all Char.isDigit = true := by
    rw [hipc, List.all_cons, Bool.and_eq_true]
    rw [hipc, List.all_cons, Bool.and_eq_true] at hipall
    exact hipall
  have htd1 := takeWhile_all_append Char.isDigit ip ('.' :: (fp ++ rest)) hipall2
    (fun c hc => by
      simp only [List.head?_cons, Option.some.injEq] at hc
      subst hc; decide)
  have htd2 := takeWhile_all_append Char.isDigit fp rest hfpall
    (fun c hc => (hr c hc).1)
  have hipne : ip.isEmpty = false := by rw [hipc]; rfl
  have hsgn : (decide ((some '-' : Option Char) = some '-')) = true := by decide
  have hfplen : fp.length = s + 1 := by
    rw [hfp, List.length_drop]
    omega
  have hfpne : fp.isEmpty = false := by
    cases hh : fp with
    | nil => rw [hh] at hfplen; simp at hfplen
    | cons a b => rfl
  have hsplit : floatChars m s ++ rest =
      (if m < 0 then ['-'] else []) ++ (ip ++ '.' :: (fp ++ rest)) := by
    rw [floatChars]
    simp only [← hds, ← hpad, ← hip, ← hfp, List.append_assoc, List.cons_append]
  by_cases hneg : m < 0
  · exact ⟨_, by
      rw [hsplit, if_pos hneg, hipc]
      simp only [List.cons_append, List.singleton_append, List.nil_append, List.head?_cons,
        List.tail_cons, parseNumber, hsgn, if_true, decide_True]
      rw [show d0 :: (ip2 ++ '.' :: (fp ++ rest)) = (d0 :: ip2) ++ '.' :: (fp ++ rest)
        from rfl, ← hipc, htd1.1, htd1.2]
      simp only [hipne, Bool.false_eq_true, if_false, List.head?_cons, Option.some.injEq,
        decide_True, if_true, List.tail_cons]
      rw [htd2.1, htd2.2]
      simp only [hfpne, Bool.false_eq_true, if_false]
      rfl⟩
  · exact ⟨_, by
      rw [hsplit, if_neg hneg, hipc]
      simp only [List.nil_append, List.cons_append, parseNumber, List.head?_cons, hd0m,
        Bool.false_eq_true, if_false]
      rw [show d0 :: (ip2 ++ '.' :: (fp ++ rest)) = (d0 :: ip2) ++ '.' :: (fp ++ rest)
        from rfl, ← hipc, htd1.1, htd1.2]
      simp only [hipne, Bool.false_eq_true, if_false, List.head?_cons, Option.some.injEq,
        decide_True, if_true, List.tail_cons]
      rw [htd2.1, htd2.2]
      simp only [hfpne, Bool.false_eq_true, if_false]
      rfl⟩

/-- The identifier reader consumes a rendered identifier exactly. -/
theorem takeIdent_append (p rest : List Char) (hp : isIdent p = true)
    (hrest : ∀ c, rest.head? = some c → isIdentChar c = false) :
    takeIdent (p ++ rest) = some (p, rest) := by
  cases p with
  | nil => simp [isIdent] at hp
  | cons c cs =>
    simp only [isIdent, Bool.and_eq_true] at hp
    have h2 := takeWhile_all_append isIdentChar cs rest hp.2 hrest
    simp [takeIdent, List.cons_append, hp.1, h2.1, h2.2]

theorem isDigit_ne (c d : Char) (h : c.isDigit = true) (hd : d.isDigit = false) :
    ¬(c = d) := by
  intro hh
  subst hh
  rw [h] at hd
  exact absurd hd (by decide)

theorem isDigit_not_space (c : Char) (h : c.isDigit = true) : isPySpace c = false := by
  by_cases hh : isPySpace c = true
  · exfalso
    have hor : c = ' ' ∨ c = '\t' ∨ c = '\n' ∨ c = '\r' ∨ c = '\x0b' ∨ c = '\x0c' := by
      simpa [isPySpace, or_assoc] using hh
    rcases hor with h1 | h1 | h1 | h1 | h1 | h1 <;> subst h1 <;> simp at h
  · simpa using hh

theorem intToChars_head (i : Int) :
    ∃ c0 t, intToChars i = c0 :: t ∧ (c0 = '-' ∨ c0.isDigit = true) := by
  by_cases hneg : i < 0
  · rw [intToChars, if_pos hneg]
    exact ⟨'-', _, rfl, Or.inl rfl⟩
  · rw [intToChars, if_neg hneg]
    obtain ⟨d0, nd2, hnd⟩ : ∃ d0 nd2, natDigits i.natAbs = d0 :: nd2 := by
      cases hh : natDigits i.natAbs with
      | nil => exact absurd hh (natDigits_ne_nil i.natAbs)
      | cons a b => exact ⟨a, b, rfl⟩
    have hdig := natDigits_all_digit i.natAbs
    rw [hnd, List.all_cons, Bool.and_eq_true] at hdig
    exact ⟨d0, nd2, hnd, Or.inr hdig.1⟩

theorem floatChars_head (m : Int) (s : Nat) :
    ∃ c0 t, floatChars m s = c0 :: t ∧ (c0 = '-' ∨ c0.isDigit = true) := by
  have hdlen : 1 ≤ (natDigits m.natAbs).length := by
    cases hh : natDigits m.natAbs with
    | nil => exact absurd hh (natDigits_ne_nil m.natAbs)
    | cons a b => simp [hh]
  have hplen : s + 2 ≤ (List.replicate (s + 2 - (natDigits m.natAbs).length) '0' ++
      natDigits m.natAbs).length := by
    rw [List.length_append, List.length_replicate]
    omega
  have hpadall : (List.replicate (s + 2 - (natDigits m.natAbs).length) '0' ++
      natDigits m.natAbs).all Char.isDigit = true := by
    rw [List.all_append]
    refine Bool.and_eq_true_iff.mpr ⟨?_, natDigits_all_digit m.natAbs⟩
    simp only [List.all_eq_true]
    intro c hc
    rw [List.eq_of_mem_replicate hc]
    decide
  set pad := List.replicate (s + 2 - (natDigits m.natAbs).length) '0' ++
    natDigits m.natAbs with hpad
  have hiplen : 1 ≤ (pad.take (pad.length - (s + 1))).length := by
    rw [List.length_take]
    omega
  obtain ⟨d0, ip2, hipc⟩ : ∃ d0 ip2, pad.take (pad.length - (s + 1)) = d0 :: ip2 := by
    cases hh : pad.take (pad.length - (s + 1)) with
    | nil => rw [hh] at hiplen; simp at hiplen
    | cons a b => exact ⟨a, b, rfl⟩
  have hd0 : d0.isDigit = true := by
    have : (pad.take (pad.length - (s + 1))).all Char.isDigit = true := by
      simp only [List.all_eq_true] at hpadall ⊢
      intro c hc
      exact hpadall c (List.mem_of_mem_take hc)
    rw [hipc, List.all_cons, Bool.and_eq_true] at this
    exact this.1
  by_cases hneg : m < 0
  · obtain ⟨t, heq⟩ : ∃ t, floatChars m s = '-' :: t := ⟨_, by
      rw [floatChars]
      simp only [← hpad, if_pos hneg, List.cons_append, List.nil_append]
      rfl⟩
    exact ⟨'-', t, heq, Or.inl rfl⟩
  · obtain ⟨t, heq⟩ : ∃ t, floatChars m s = d0 :: t := ⟨_, by
      rw [floatChars]
      simp only [← hpad, if_neg hneg, List.nil_append, hipc, List.cons_append]
      rfl⟩
    exact ⟨d0, t, heq, Or.inr hd0⟩

/-- The quote character the renderer picks is one of the two quotes. -/
theorem strQuote_cases (s : List Char) : strQuote s = '\'' ∨ strQuote s = '"' := by
  unfold strQuote
  by_cases hcc : (s.contains '\'' && !(s.contains '"')) = true
  · rw [if_pos hcc]; exact Or.inr rfl
  · rw [if_neg hcc]; exact Or.inl rfl

/-- Every rendered value starts with a character that is not whitespace
and not one of the delimiters the surrounding grammar dispatches on. -/
theorem pyRepr_head (v : Value) :
    ∃ c0 t, pyRepr v = c0 :: t ∧ isPySpace c0 = false ∧ ¬(c0 = ')') ∧ ¬(c0 = ']') ∧
      ¬(c0 = '}') ∧ ¬(c0 = ',') ∧ ¬(c0 = ':') := by
  cases v with
  | VInt i =>
    obtain ⟨c0, t, hct, hc⟩ := intToChars_head i
    rcases hc with h | h
    · subst h
      exact ⟨'-', t, hct, by decide, by decide, by decide, by decide, by decide, by decide⟩
    · exact ⟨c0, t, hct, isDigit_not_space c0 h, isDigit_ne c0 ')' h (by decide),
        isDigit_ne c0 ']' h (by decide), isDigit_ne c0 '}' h (by decide),
        isDigit_ne c0 ',' h (by decide), isDigit_ne c0 ':' h (by decide)⟩
  | VFloat m s =>
    obtain ⟨c0, t, hct, hc⟩ := floatChars_head m s
    rcases hc with h | h
    · subst h
      exact ⟨'-', t, hct, by decide, by decide, by decide, by decide, by decide, by decide⟩
    · exact ⟨c0, t, hct, isDigit_not_space c0 h, isDigit_ne c0 ')' h (by decide),
        isDigit_ne c0 ']' h (by decide), isDigit_ne c0 '}' h (by decide),
        isDigit_ne c0 ',' h (by decide), isDigit_ne c0 ':' h (by decide)⟩
  | VStr s =>
    rcases strQuote_cases s with h | h <;>
      refine ⟨strQuote s, escapeStr (strQuote s) s ++ [strQuote s], rfl, ?_, ?_, ?_, ?_, ?_, ?_⟩ <;>
      rw [h] <;> decide
  | VBool b =>
    cases b
    · exact ⟨'F', _, rfl, by decide, by decide, by decide, by decide, by decide, by decide⟩
    · exact ⟨'T', _, rfl, by decide, by decide, by decide, by decide, by decide, by decide⟩
  | VNone =>
    exact ⟨'N', _, rfl, by decide, by decide, by decide, by decide, by decide, by decide⟩
  | VList vs =>
    exact ⟨'[', _, rfl, by decide, by decide, by decide, by decide, by decide, by decide⟩
  | VTuple vs =>
    cases vs with
    | nil => exact ⟨'(', _, rfl, by decide, by decide, by decide, by decide, by decide, by decide⟩
    | cons a t =>
      cases t with
      | nil =>
        exact ⟨'(', _, rfl, by decide, by decide, by decide, by decide, by decide, by decide⟩
      | cons b t2 =>
        exact ⟨'(', _, rfl, by decide, by decide, by decide, by decide, by decide, by decide⟩
  | VDict ps =>
    exact ⟨'{', _, rfl, by decide, by decide, by decide, by decide, by decide, by decide⟩

/-- Every fuel requirement is at least one. -/
theorem fuelNeed_pos (v : Value) : 1 ≤ fuelNeed v := by
  cases v with
  | VTuple vs =>
    cases vs with
    | nil => simp [fuelNeed]
    | cons a t => cases t <;> exact le_trans (by omega) (Nat.le_add_right 2 _)
  | VList vs => simp [fuelNeed]
  | VDict ps => simp [fuelNeed]
  | VInt i => simp [fuelNeed]
  | VFloat m s => simp [fuelNeed]
  | VStr s => simp [fuelNeed]
  | VBool b => simp [fuelNeed]
  | VNone => simp [fuelNeed]

theorem numStart_not_special (c : Char) (h : c = '-' ∨ c.isDigit = true) :
    (decide (c = '\'') || decide (c = '"')) = false ∧ ¬(c = '[') ∧ ¬(c = '{') ∧
    ¬(c = '(') ∧ (decide (c = '-') || c.isDigit) = true := by
  rcases h with h | h
  · subst h; exact ⟨by decide, by decide, by decide, by decide, by decide⟩
  · have h1 := isDigit_ne c '\'' h (by decide)
    have h2 := isDigit_ne c '"' h (by decide)
    exact ⟨by simp [h1, h2], isDigit_ne c '[' h (by decide), isDigit_ne c '{' h (by decide),
      isDigit_ne c '(' h (by decide), by simp [h]⟩

/-- Main correctness of the modelled literal parser on rendered values:
with enough fuel, `parseLit` consumes exactly `pyRepr v` in front of any
delimiter-headed remainder, and the element and dict-item readers consume
exactly their rendered contents up to the closing delimiter. -/
theorem parseMain : ∀ (fuel : Nat),
    (∀ (v : Value) (rest : List Char), fuelNeed v ≤ fuel → stopperOk rest = true →
      ∃ w, parseLit fuel (pyRepr v ++ rest) = some (w, rest)) ∧
    (∀ (vs : List Value) (close : Char) (rest : List Char), close = ']' ∨ close = ')' →
      fuelNeedElems vs ≤ fuel →
      ∃ ws, parseElems fuel close (pyReprElems vs ++ close :: rest) = some (ws, rest)) ∧
    (∀ (ps : List (Value × Value)) (rest : List Char), fuelNeedPairs ps ≤ fuel →
      ∃ qs, parseDict fuel (pyReprPairs ps ++ '}' :: rest) = some (qs, rest)) := by
  intro fuel
  induction fuel using Nat.strong_induction_on with
  | _ fuel ih =>
  refine ⟨?_, ?_, ?_⟩
  · -- parseLit on a rendered value
    intro v rest hf hstop
    cases fuel with
    | zero => exact absurd (le_trans (fuelNeed_pos v) hf) (by omega)
    | succ f =>
    cases v with
    | VInt i =>
      obtain ⟨c0, t, hct, hc0⟩ := intToChars_head i
      obtain ⟨w, hw⟩ := parseNumber_intToChars i rest hstop
      have hsp : isPySpace c0 = false := by
        rcases hc0 with h | h
        · subst h; decide
        · exact isDigit_not_space _ h
      obtain ⟨hq, hb1, hb2, hb3, hnum⟩ := numStart_not_special c0 hc0
      refine ⟨w, ?_⟩
      show parseLit (f + 1) (intToChars i ++ rest) = some (w, rest)
      rw [parseLit.eq_2, hct, List.cons_append, skipWs_cons_of_not_space _ _ hsp]
      simp only [hq, Bool.false_eq_true, if_false, if_neg hb1, if_neg hb2, if_neg hb3,
        hnum, if_true]
      rw [← List.cons_append, ← hct, hw]
    | VFloat m s =>
      obtain ⟨c0, t, hct, hc0⟩ := floatChars_head m s
      obtain ⟨w, hw⟩ := parseNumber_floatChars m s rest hstop
      have hsp : isPySpace c0 = false := by
        rcases hc0 with h | h
        · subst h; decide
        · exact isDigit_not_space _ h
      obtain ⟨hq, hb1, hb2, hb3, hnum⟩ := numStart_not_special c0 hc0
      refine ⟨w, ?_⟩
      show parseLit (f + 1) (floatChars m s ++ rest) = some (w, rest)
      rw [parseLit.eq_2, hct, List.cons_append, skipWs_cons_of_not_space _ _ hsp]
      simp only [hq, Bool.false_eq_true, if_false, if_neg hb1, if_neg hb2, if_neg hb3,
        hnum, if_true]
      rw [← List.cons_append, ← hct, hw]
    | VStr s =>
      have hq := strQuote_cases s
      have hsp : isPySpace (strQuote s) = false := by rcases hq with h | h <;> rw [h] <;> decide
      have hqq : (decide (strQuote s = '\'') || decide (strQuote s = '"')) = true := by
        rcases hq with h | h <;> simp [h]
      refine ⟨Value.VStr s, ?_⟩
      show parseLit (f + 1)
          ((strQuote s :: (escapeStr (strQuote s) s ++ [strQuote s])) ++ rest) = _
      rw [List.cons_append, parseLit.eq_2, skipWs_cons_of_not_space _ _ hsp]
      simp only [hqq, if_true]
      rw [List.append_assoc, List.singleton_append,
        parseStrContent_escape (strQuote s) hq s rest]
    | VBool b =>
      have hr := stopper_facts rest hstop
      cases b
      · have ht := takeIdent_append ('F' :: 'a' :: 'l' :: 's' :: ['e']) rest (by decide)
          (fun c hc => (hr c hc).2.2.1)
        refine ⟨Value.VBool false, ?_⟩
        show parseLit (f + 1) (('F' :: 'a' :: 'l' :: 's' :: ['e']) ++ rest) = _
        rw [List.cons_append, parseLit.eq_2, skipWs_cons_of_not_space _ _ (by decide)]
        simp only [show (decide ('F' = '\'') || decide ('F' = '"')) = false by decide,
          Bool.false_eq_true, if_false, if_neg (show ¬('F' = '[') by decide),
          if_neg (show ¬('F' = '{') by decide), if_neg (show ¬('F' = '(') by decide),
          show (decide ('F' = '-') || 'F'.isDigit) = false by decide]
        rw [← List.cons_append, ht]
        simp
      · have ht := takeIdent_append ('T' :: 'r' :: 'u' :: ['e']) rest (by decide)
          (fun c hc => (hr c hc).2.2.1)
        refine ⟨Value.VBool true, ?_⟩
        show parseLit (f + 1) (('T' :: 'r' :: 'u' :: ['e']) ++ rest) = _
        rw [List.cons_append, parseLit.eq_2, skipWs_cons_of_not_space _ _ (by decide)]
        simp only [show (decide ('T' = '\'') || decide ('T' = '"')) = false by decide,
          Bool.false_eq_true, if_false, if_neg (show ¬('T' = '[') by decide),
          if_neg (show ¬('T' = '{') by decide), if_neg (show ¬('T' = '(') by decide),
          show (decide ('T' = '-') || 'T'.isDigit) = false by decide]
        rw [← List.cons_append, ht]
        simp
    | VNone =>
      have hr := stopper_facts rest hstop
      have ht := takeIdent_append ('N' :: 'o' :: 'n' :: ['e']) rest (by decide)
        (fun c hc => (hr c hc).2.2.1)
      refine ⟨Value.VNone, ?_⟩
      show parseLit (f + 1) (('N' :: 'o' :: 'n' :: ['e']) ++ rest) = _
      rw [List.cons_append, parseLit.eq_2, skipWs_cons_of_not_space _ _ (by decide)]
      simp only [show (decide ('N' = '\'') || decide ('N' = '"')) = false by decide,
        Bool.false_eq_true, if_false, if_neg (show ¬('N' = '[') by decide),
        if_neg (show ¬('N' = '{') by decide), if_neg (show ¬('N' = '(') by decide),
        show (decide ('N' = '-') || 'N'.isDigit) = false by decide]
      rw [← List.cons_append, ht]
      simp
    | VList vs =>
      have hf2 : fuelNeedElems vs ≤ f := by
        have h2 : 1 + fuelNeedElems vs ≤ f + 1 := hf
        omega
      obtain ⟨ws, hws⟩ := (ih f (by omega)).2.1 vs ']' rest (Or.inl rfl) hf2
      refine ⟨Value.VList ws, ?_⟩
      have heq : pyRepr (Value.VList vs) ++ rest = '[' :: (pyReprElems vs ++ ']' :: rest) := by
        show ('[' :: pyReprElems vs ++ [']']) ++ rest = _
        simp [List.cons_append, List.append_assoc]
      rw [heq, parseLit.eq_2, skipWs_cons_of_not_space _ _ (by decide)]
      simp only [show (decide ('[' = '\'') || decide ('[' = '"')) = false by decide,
        Bool.false_eq_true, if_false, if_pos rfl, if_true]
      rw [hws]
    | VDict ps =>
      have hf2 : fuelNeedPairs ps ≤ f := by
        have h2 : 1 + fuelNeedPairs ps ≤ f + 1 := hf
        omega
      obtain ⟨qs, hqs⟩ := (ih f (by omega)).2.2 ps rest hf2
      refine ⟨Value.VDict qs, ?_⟩
      have heq : pyRepr (Value.VDict ps) ++ rest = '{' :: (pyReprPairs ps ++ '}' :: rest) := by
        show ('{' :: pyReprPairs ps ++ ['}']) ++ rest = _
        simp [List.cons_append, List.append_assoc]
      rw [heq, parseLit.eq_2, skipWs_cons_of_not_space _ _ (by decide)]
      simp only [show (decide ('{' = '\'') || decide ('{' = '"')) = false by decide,
        Bool.false_eq_true, if_false, if_neg (show ¬('{' = '[') by decide), if_pos rfl, if_true]
      rw [hqs]
    | VTuple vs =>
      cases vs with
      | nil =>
        have hf2 : (2 : Nat) ≤ f + 1 := hf
        cases f with
        | zero => omega
        | succ f2 =>
          refine ⟨Value.VTuple [], ?_⟩
          have heq : pyRepr (Value.VTuple []) ++ rest = '(' :: ')' :: rest := rfl
          rw [heq, parseLit.eq_2, skipWs_cons_of_not_space _ _ (by decide)]
          simp only [show (decide ('(' = '\'') || decide ('(' = '"')) = false by decide,
            Bool.false_eq_true, if_false, if_neg (show ¬('(' = '[') by decide),
            if_neg (show ¬('(' = '{') by decide), if_pos rfl, if_true]
          rw [parseTuple.eq_2, skipWs_cons_of_not_space _ _ (by decide)]
          simp
      | cons v vs2 =>
        obtain ⟨c0, t0, hct, hsp, hpr, hbr2, hbr3, hcm, hcl⟩ := pyRepr_head v
        cases vs2 with
        | nil =>
          have hf2 : 2 + max (fuelNeed v) 1 ≤ f + 1 := hf
          have hA := Nat.le_max_left (fuelNeed v) 1
          have hB := Nat.le_max_right (fuelNeed v) 1
          cases f with
          | zero => omega
          | succ f2 =>
            have hfv : fuelNeed v ≤ f2 := by omega
            have hf21 : 1 ≤ f2 := by omega
            obtain ⟨w, hw⟩ := (ih f2 (by omega)).1 v (',' :: ')' :: rest) hfv rfl
            refine ⟨Value.VTuple [w], ?_⟩
            have heq : pyRepr (Value.VTuple [v]) ++ rest =
                '(' :: (pyRepr v ++ ',' :: ')' :: rest) := by
              show ('(' :: pyRepr v ++ ',' :: [')']) ++ rest = _
              simp [List.cons_append, List.append_assoc]
            rw [heq, parseLit.eq_2, skipWs_cons_of_not_space _ _ (by decide)]
            simp only [show (decide ('(' = '\'') || decide ('(' = '"')) = false by decide,
              Bool.false_eq_true, if_false, if_neg (show ¬('(' = '[') by decide),
              if_neg (show ¬('(' = '{') by decide), if_pos rfl, if_true]
            rw [parseTuple.eq_2, hct, List.cons_append,
              skipWs_cons_of_not_space _ _ hsp]
            simp only [if_neg hpr]
            rw [← List.cons_append, ← hct, hw]
            simp only [if_true]
            rw [skipWs_cons_of_not_space _ _ (by decide)]
            simp only [if_neg (show ¬(',' = ')') by decide), if_pos rfl, if_true]
            cases f2 with
            | zero => omega
            | succ f3 =>
              rw [parseElems.eq_2, skipWs_cons_of_not_space _ _ (by decide)]
              simp
        | cons v2 vs3 =>
          have hf2 : 2 + max (fuelNeed v) (fuelNeedElems (v2 :: vs3)) ≤ f + 1 := hf
          have hA := Nat.le_max_left (fuelNeed v) (fuelNeedElems (v2 :: vs3))
          have hB := Nat.le_max_right (fuelNeed v) (fuelNeedElems (v2 :: vs3))
          cases f with
          | zero => omega
          | succ f2 =>
            have hfv : fuelNeed v ≤ f2 := by omega
            have hfe : fuelNeedElems (v2 :: vs3) ≤ f2 := by omega
            obtain ⟨w, hw⟩ := (ih f2 (by omega)).1 v
              (',' :: ' ' :: (pyReprElems (v2 :: vs3) ++ ')' :: rest)) hfv rfl
            obtain ⟨ws, hws⟩ := (ih f2 (by omega)).2.1 (v2 :: vs3) ')' rest (Or.inr rfl) hfe
            refine ⟨Value.VTuple (w :: ws), ?_⟩
            have heq : pyRepr (Value.VTuple (v :: v2 :: vs3)) ++ rest =
                '(' :: (pyRepr v ++ ',' :: ' ' :: (pyReprElems (v2 :: vs3) ++ ')' :: rest)) := by
              show ('(' :: pyReprElems (v :: v2 :: vs3) ++ [')']) ++ rest = _
              show ('(' :: (pyRepr v ++ ',' :: ' ' :: pyReprElems (v2 :: vs3)) ++ [')']) ++ rest = _
              simp [List.cons_append, List.append_assoc]
            rw [heq, parseLit.eq_2, skipWs_cons_of_not_space _ _ (by decide)]
            simp only [show (decide ('(' = '\'') || decide ('(' = '"')) = false by decide,
              Bool.false_eq_true, if_false, if_neg (show ¬('(' = '[') by decide),
              if_neg (show ¬('(' = '{') by decide), if_pos rfl, if_true]
            rw [parseTuple.eq_2, hct, List.cons_append,
              skipWs_cons_of_not_space _ _ hsp]
            simp only [if_neg hpr]
            rw [← List.cons_append, ← hct, hw]
            simp only [if_true]
            rw [skipWs_cons_of_not_space _ _ (by decide)]
            simp only [if_neg (show ¬(',' = ')') by decide), if_pos rfl, if_true]
            rw [parseElems_cons_space, hws]
  · -- parseElems on rendered elements
    intro vs close rest hclose hf
    have hcns : isPySpace close = false := by rcases hclose with h | h <;> subst h <;> decide
    have hclstop : stopperOk (close :: rest) = true := by
      rcases hclose with h | h <;> subst h <;> rfl
    have hclc : ¬(close = ',') := by rcases hclose with h | h <;> subst h <;> decide
    cases fuel with
    | zero =>
      exfalso
      cases vs with
      | nil => simp [fuelNeedElems] at hf
      | cons a t =>
        have h2 : 1 + max (fuelNeed a) (fuelNeedElems t) ≤ 0 := hf
        omega
    | succ f =>
    cases vs with
    | nil =>
      refine ⟨[], ?_⟩
      show parseElems (f + 1) close (([] : List Char) ++ close :: rest) = _
      rw [List.nil_append, parseElems.eq_2, skipWs_cons_of_not_space _ _ hcns]
      simp only [if_pos rfl, if_true]
    | cons v vs2 =>
      obtain ⟨c0, t0, hct, hsp, hpr, hbr2, hbr3, hcm, hcl⟩ := pyRepr_head v
      have hne_close : ¬(c0 = close) := by
        rcases hclose with h | h <;> subst h
        · exact hbr2
        · exact hpr
      cases vs2 with
      | nil =>
        have hf2 : 1 + max (fuelNeed v) (fuelNeedElems []) ≤ f + 1 := hf
        have hA := Nat.le_max_left (fuelNeed v) (fuelNeedElems ([] : List Value))
        have hfv : fuelNeed v ≤ f := by omega
        obtain ⟨w, hw⟩ := (ih f (by omega)).1 v (close :: rest) hfv hclstop
        refine ⟨[w], ?_⟩
        show parseElems (f + 1) close (pyRepr v ++ close :: rest) = _
        rw [hct, List.cons_append, parseElems.eq_2, skipWs_cons_of_not_space _ _ hsp]
        simp only [if_neg hne_close]
        rw [← List.cons_append, ← hct, hw]
        simp only [if_true]
        rw [skipWs_cons_of_not_space _ _ hcns]
        simp only [if_neg hclc, if_pos rfl, if_true]
      | cons v2 vs3 =>
        have hf2 : 1 + max (fuelNeed v) (fuelNeedElems (v2 :: vs3)) ≤ f + 1 := hf
        have hA := Nat.le_max_left (fuelNeed v) (fuelNeedElems (v2 :: vs3))
        have hB := Nat.le_max_right (fuelNeed v) (fuelNeedElems (v2 :: vs3))
        have hfv : fuelNeed v ≤ f := by omega
        have hfe : fuelNeedElems (v2 :: vs3) ≤ f := by omega
        obtain ⟨w, hw⟩ := (ih f (by omega)).1 v
          (',' :: ' ' :: (pyReprElems (v2 :: vs3) ++ close :: rest)) hfv rfl
        obtain ⟨ws, hws⟩ := (ih f (by omega)).2.1 (v2 :: vs3) close rest hclose hfe
        refine ⟨w :: ws, ?_⟩
        have heq : pyReprElems (v :: v2 :: vs3) ++ close :: rest =
            pyRepr v ++ ',' :: ' ' :: (pyReprElems (v2 :: vs3) ++ close :: rest) := by
          show (pyRepr v ++ ',' :: ' ' :: pyReprElems (v2 :: vs3)) ++ close :: rest = _
          simp [List.cons_append, List.append_assoc]
        rw [heq, hct, List.cons_append, parseElems.eq_2,
          skipWs_cons_of_not_space _ _ hsp]
        simp only [if_neg hne_close]
        rw [← List.cons_append, ← hct, hw]
        simp only [if_true]
        rw [skipWs_cons_of_not_space _ _ (by decide)]
        simp only [if_pos rfl, if_true]
        rw [parseElems_cons_space, hws]
  · -- parseDict on rendered items
    intro ps rest hf
    cases fuel with
    | zero =>
      exfalso
      cases ps with
      | nil => simp [fuelNeedPairs] at hf
      | cons a t =>
        have h2 : 1 + max (max (fuelNeed a.1) (fuelNeed a.2)) (fuelNeedPairs t) ≤ 0 := by
          rcases a with ⟨k, v⟩
          exact hf
        omega
    | succ f =>
    cases ps with
    | nil =>
      refine ⟨[], ?_⟩
      show parseDict (f + 1) (([] : List Char) ++ '}' :: rest) = _
      rw [List.nil_append, parseDict.eq_2, skipWs_cons_of_not_space _ _ (by decide)]
      simp only [if_pos rfl, if_true]
    | cons kv ps2 =>
      obtain ⟨k, v⟩ := kv
      obtain ⟨c0, t0, hct, hsp, hpr, hbr2, hbr3, hcm, hcl⟩ := pyRepr_head k
      have hf2 : 1 + max (max (fuelNeed k) (fuelNeed v)) (fuelNeedPairs ps2) ≤ f + 1 := hf
      have hA := Nat.le_max_left (fuelNeed k) (fuelNeed v)
      have hB := Nat.le_max_right (fuelNeed k) (fuelNeed v)
      have hC := Nat.le_max_left (max (fuelNeed k) (fuelNeed v)) (fuelNeedPairs ps2)
      have hD := Nat.le_max_right (max (fuelNeed k) (fuelNeed v)) (fuelNeedPairs ps2)
      have hfk : fuelNeed k ≤ f := by omega
      have hfv : fuelNeed v ≤ f := by omega
      cases ps2 with
      | nil =>
        obtain ⟨wk, hwk⟩ := (ih f (by omega)).1 k
          (':' :: ' ' :: (pyRepr v ++ '}' :: rest)) hfk rfl
        obtain ⟨wv, hwv⟩ := (ih f (by omega)).1 v ('}' :: rest) hfv rfl
        refine ⟨[(wk, wv)], ?_⟩
        have heq : pyReprPairs [(k, v)] ++ '}' :: rest =
            pyRepr k ++ ':' :: ' ' :: (pyRepr v ++ '}' :: rest) := by
          show (pyRepr k ++ ':' :: ' ' :: pyRepr v) ++ '}' :: rest = _
          simp [List.cons_append, List.append_assoc]
        rw [heq, hct, List.cons_append, parseDict.eq_2,
          skipWs_cons_of_not_space _ _ hsp]
        simp only [if_neg hbr3]
        rw [← List.cons_append, ← hct, hwk]
        simp only [if_true]
        rw [skipWs_cons_of_not_space _ _ (by decide)]
        simp only [if_pos rfl, if_true]
        rw [parseLit_cons_space, hwv]
        simp only [if_true]
        rw [skipWs_cons_of_not_space _ _ (by decide)]
        simp only [if_neg (show ¬('}' = ',') by decide), if_pos rfl, if_true]
      | cons p ps3 =>
        have hfp : fuelNeedPairs (p :: ps3) ≤ f := by omega
        obtain ⟨wk, hwk⟩ := (ih f (by omega)).1 k
          (':' :: ' ' :: (pyRepr v ++ ',' :: ' ' :: (pyReprPairs (p :: ps3) ++ '}' :: rest)))
          hfk rfl
        obtain ⟨wv, hwv⟩ := (ih f (by omega)).1 v
          (',' :: ' ' :: (pyReprPairs (p :: ps3) ++ '}' :: rest)) hfv rfl
        obtain ⟨qs, hqs⟩ := (ih f (by omega)).2.2 (p :: ps3) rest hfp
        refine ⟨(wk, wv) :: qs, ?_⟩
        have heq : pyReprPairs ((k, v) :: p :: ps3) ++ '}' :: rest =
            pyRepr k ++ ':' :: ' ' ::
              (pyRepr v ++ ',' :: ' ' :: (pyReprPairs (p :: ps3) ++ '}' :: rest)) := by
          show (pyRepr k ++ ':' :: ' ' :: pyRepr v ++ ',' :: ' ' :: pyReprPairs (p :: ps3)) ++
              '}' :: rest = _
          simp [List.cons_append, List.append_assoc]
        rw [heq, hct, List.cons_append, parseDict.eq_2,
          skipWs_cons_of_not_space _ _ hsp]
        simp only [if_neg hbr3]
        rw [← List.cons_append, ← hct, hwk]
        simp only [if_true]
        rw [skipWs_cons_of_not_space _ _ (by decide)]
        simp only [if_pos rfl, if_true]
        rw [parseLit_cons_space, hwv]
        simp only [if_true]
        rw [skipWs_cons_of_not_space _ _ (by decide)]
        simp only [if_pos rfl, if_true]
        rw [parseDict_cons_space, hqs]

theorem pyRepr_length_pos (v : Value) : 1 ≤ (pyRepr v).length := by
  obtain ⟨c, t, hct, _⟩ := pyRepr_head v
  rw [hct]
  simp

/-- The fuel a rendered value needs is bounded by its rendered length
(similarly for element and item lists, up to one extra step for the
closing delimiter). -/
theorem fuelNeed_le_repr_aux : ∀ (n : Nat),
    (∀ v : Value, sizeOf v ≤ n → fuelNeed v ≤ (pyRepr v).length) ∧
    (∀ vs : List Value, sizeOf vs ≤ n → fuelNeedElems vs ≤ (pyReprElems vs).length + 1) ∧
    (∀ ps : List (Value × Value), sizeOf ps ≤ n →
      fuelNeedPairs ps ≤ (pyReprPairs ps).length + 1) := by
  intro n
  induction n with
  | zero =>
    refine ⟨?_, ?_, ?_⟩
    · intro v h
      exfalso
      cases v <;> simp at h
    · intro vs h
      exfalso
      cases vs <;> simp at h
    · intro ps h
      exfalso
      cases ps <;> simp at h
  | succ n ihn =>
    obtain ⟨ih1, ih2, ih3⟩ := ihn
    refine ⟨?_, ?_, ?_⟩
    · intro v h
      cases v with
      | VInt i => exact pyRepr_length_pos (Value.VInt i)
      | VFloat m s => exact pyRepr_length_pos (Value.VFloat m s)
      | VStr s => exact pyRepr_length_pos (Value.VStr s)
      | VBool b => exact pyRepr_length_pos (Value.VBool b)
      | VNone => exact pyRepr_length_pos Value.VNone
      | VList vs =>
        simp only [Value.VList.sizeOf_spec] at h
        have h2 := ih2 vs (by omega)
        have hL : (pyRepr (Value.VList vs)).length = (pyReprElems vs).length + 2 := by
          show ('[' :: pyReprElems vs ++ [']']).length = _
          simp
        show 1 + fuelNeedElems vs ≤ (pyRepr (Value.VList vs)).length
        omega
      | VDict ps =>
        simp only [Value.VDict.sizeOf_spec] at h
        have h2 := ih3 ps (by omega)
        have hL : (pyRepr (Value.VDict ps)).length = (pyReprPairs ps).length + 2 := by
          show ('{' :: pyReprPairs ps ++ ['}']).length = _
          simp
        show 1 + fuelNeedPairs ps ≤ (pyRepr (Value.VDict ps)).length
        omega
      | VTuple vs =>
        simp only [Value.VTuple.sizeOf_spec] at h
        cases vs with
        | nil =>
          show (2 : Nat) ≤ (pyRepr (Value.VTuple [])).length
          decide
        | cons v vs2 =>
          simp only [List.cons.sizeOf_spec] at h
          have hv := ih1 v (by omega)
          have hvl := pyRepr_length_pos v
          cases vs2 with
          | nil =>
            have hL : (pyRepr (Value.VTuple [v])).length = (pyRepr v).length + 3 := by
              show ('(' :: pyRepr v ++ ',' :: [')']).length = _
              simp
            show 2 + max (fuelNeed v) 1 ≤ (pyRepr (Value.VTuple [v])).length
            omega
          | cons w vs3 =>
            simp only [List.cons.sizeOf_spec] at h
            have he := ih2 (w :: vs3) (by simp only [List.cons.sizeOf_spec]; omega)
            have hL : (pyRepr (Value.VTuple (v :: w :: vs3))).length =
                (pyRepr v).length + 2 + (pyReprElems (w :: vs3)).length + 2 := by
              show ('(' :: pyReprElems (v :: w :: vs3) ++ [')']).length = _
              show ('(' :: (pyRepr v ++ ',' :: ' ' :: pyReprElems (w :: vs3)) ++ [')']).length = _
              simp
              omega
            show 2 + max (fuelNeed v) (fuelNeedElems (w :: vs3)) ≤ _
            omega
    · intro vs h
      cases vs with
      | nil =>
        show (1 : Nat) ≤ (pyReprElems ([] : List Value)).length + 1
        decide
      | cons v vs2 =>
        simp only [List.cons.sizeOf_spec] at h
        have hv := ih1 v (by omega)
        have hvl := pyRepr_length_pos v
        cases vs2 with
        | nil =>
          show 1 + max (fuelNeed v) (fuelNeedElems []) ≤ (pyReprElems [v]).length + 1
          show 1 + max (fuelNeed v) 1 ≤ (pyRepr v).length + 1
          omega
        | cons w vs3 =>
          simp only [List.cons.sizeOf_spec] at h
          have he := ih2 (w :: vs3) (by simp only [List.cons.sizeOf_spec]; omega)
          have hL : (pyReprElems (v :: w :: vs3)).length =
              (pyRepr v).length + 2 + (pyReprElems (w :: vs3)).length := by
            show (pyRepr v ++ ',' :: ' ' :: pyReprElems (w :: vs3)).length = _
            simp
            omega
          show 1 + max (fuelNeed v) (fuelNeedElems (w :: vs3)) ≤ _
          omega
    · intro ps h
      cases ps with
      | nil =>
        show (1 : Nat) ≤ (pyReprPairs ([] : List (Value × Value))).length + 1
        decide
      | cons kv ps2 =>
        obtain ⟨k, v⟩ := kv
        simp only [List.cons.sizeOf_spec, Prod.mk.sizeOf_spec] at h
        have hk := ih1 k (by omega)
        have hv := ih1 v (by omega)
        have hkl := pyRepr_length_pos k
        have hvl := pyRepr_length_pos v
        cases ps2 with
        | nil =>
          have hL : (pyReprPairs [(k, v)]).length =
              (pyRepr k).length + 2 + (pyRepr v).length := by
            show (pyRepr k ++ ':' :: ' ' :: pyRepr v).length = _
            simp
            omega
          show 1 + max (max (fuelNeed k) (fuelNeed v)) (fuelNeedPairs []) ≤ _
          show 1 + max (max (fuelNeed k) (fuelNeed v)) 1 ≤ _
          omega
        | cons p ps3 =>
          simp only [List.cons.sizeOf_spec] at h
          have hp := ih3 (p :: ps3) (by simp only [List.cons.sizeOf_spec]; omega)
          have hL : (pyReprPairs ((k, v) :: p :: ps3)).length =
              (pyRepr k).length + 2 + (pyRepr v).length + 2 +
                (pyReprPairs (p :: ps3)).length := by
            show (pyRepr k ++ ':' :: ' ' :: pyRepr v ++ ',' :: ' ' ::
              pyReprPairs (p :: ps3)).length = _
            simp
            omega
          show 1 + max (max (fuelNeed k) (fuelNeed v)) (fuelNeedPairs (p :: ps3)) ≤ _
          omega

theorem fuelNeed_le_repr (v : Value) : fuelNeed v ≤ (pyRepr v).length :=
  (fuelNeed_le_repr_aux (sizeOf v)).1 v (le_refl _)

theorem identStart_not_space (c : Char) (h : isIdentStart c = true) : isPySpace c = false := by
  by_cases hh : isPySpace c = true
  · exfalso
    have hor : c = ' ' ∨ c = '\t' ∨ c = '\n' ∨ c = '\r' ∨ c = '\x0b' ∨ c = '\x0c' := by
      simpa [isPySpace, or_assoc] using hh
    rcases hor with h1 | h1 | h1 | h1 | h1 | h1 <;> subst h1 <;> exact absurd h (by decide)
  · simpa using hh

theorem identStart_ne (c d : Char) (h : isIdentStart c = true) (hd : isIdentStart d = false) :
    ¬(c = d) := by
  intro hh
  subst hh
  rw [h] at hd
  exact absurd hd (by decide)

theorem isIdent_head (p : List Char) (h : isIdent p = true) :
    ∃ c cs, p = c :: cs ∧ isIdentStart c = true := by
  cases p with
  | nil => exact absurd h (by decide)
  | cons c cs =>
    simp only [isIdent, Bool.and_eq_true] at h
    exact ⟨c, cs, rfl, h.1⟩

theorem isIdent_length (p : List Char) (h : isIdent p = true) : 1 ≤ p.length := by
  obtain ⟨c, cs, hp, _⟩ := isIdent_head p h
  rw [hp]
  simp

theorem topStrOk_all (s : List Char) (h : topStrOk (Value.VStr s) = true) :
    s.all (fun c => !(c = '\'') && !(c = '\\') && !(c = '\n') && !(c = '\r')) = true := by
  simp only [topStrOk, Bool.and_eq_true, Bool.not_eq_true'] at h
  obtain ⟨⟨⟨h1, h2⟩, h3⟩, h4⟩ := h
  rw [List.all_eq_true]
  intro c hc
  have hni : ∀ (a : Char), s.contains a = false → ¬(c = a) := by
    intro a ha hc2
    subst hc2
    have hel : s.elem c = true := List.elem_iff.mpr hc
    rw [show s.contains c = s.elem c from rfl, hel] at ha
    exact absurd ha (by decide)
  simp only [Bool.and_eq_true, Bool.not_eq_true', decide_eq_false_iff_not]
  exact ⟨⟨⟨hni '\'' h1, hni '\\' h2⟩, hni '\n' h3⟩, hni '\r' h4⟩

theorem sepJoin_cons_cons (p q : List Char) (ps : List (List Char)) :
    sepJoin (p :: q :: ps) = p ++ ',' :: ' ' :: sepJoin (q :: ps) := rfl

/-- The modelled call-argument parser accepts a `", "`-joined rendering
of wellformed arguments followed by the closing parenthesis, consuming
everything. -/
theorem parseCallArgs_items : ∀ (items : List Arg) (fuel : Nat),
    items.all argOk = true →
    (sepJoin (items.map pieceOf)).length + 1 ≤ fuel →
    ∃ args2, parseCallArgs fuel (sepJoin (items.map pieceOf) ++ [')']) = some (args2, []) := by
  intro items
  induction items with
  | nil =>
    intro fuel _ hfuel
    cases fuel with
    | zero => omega
    | succ f =>
      refine ⟨[], ?_⟩
      show parseCallArgs (f + 1) (([] : List Char) ++ [')']) = _
      rw [List.nil_append, parseCallArgs.eq_2, skipWs_cons_of_not_space _ _ (by decide)]
      simp only [if_pos rfl, if_true]
  | cons a items2 ih =>
    intro fuel hok hfuel
    rw [List.all_cons, Bool.and_eq_true] at hok
    obtain ⟨hoka, hoks⟩ := hok
    -- the text after this argument's piece
    cases items2 with
    | nil =>
      -- last argument: the piece is followed directly by the `)`
      have hsj : sepJoin ((a :: []).map pieceOf) = pieceOf a := rfl
      rw [hsj] at hfuel ⊢
      cases fuel with
      | zero => omega
      | succ f =>
      cases a with
      | inl p =>
        have hid : isIdent p = true := hoka
        obtain ⟨c, cs, hp, hcs⟩ := isIdent_head p hid
        have hti := takeIdent_append p [')'] hid (by
          intro c2 hc2
          simp only [List.head?_cons, Option.some.injEq] at hc2
          subst hc2; decide)
        refine ⟨[Sum.inl p], ?_⟩
        show parseCallArgs (f + 1) (p ++ [')']) = _
        rw [parseCallArgs.eq_2, hp, List.cons_append,
          skipWs_cons_of_not_space _ _ (identStart_not_space c hcs)]
        simp only [if_neg (identStart_ne c ')' hcs (by decide))]
        rw [← List.cons_append, ← hp]
        simp only [hti]
        rw [skipWs_cons_of_not_space ')' _ (by decide)]
        simp only [if_neg (show ¬(')' = '=') by decide),
          if_neg (show ¬(')' = ',') by decide), if_pos rfl, if_true]
      | inr kv =>
        obtain ⟨k, v⟩ := kv
        simp only [argOk, Bool.and_eq_true] at hoka
        obtain ⟨hid, hvok⟩ := hoka
        obtain ⟨c, cs, hp, hcs⟩ := isIdent_head k hid
        have hpiece : pieceOf (Sum.inr (k, v)) = k ++ '=' :: parse_arg v := rfl
        have hti := takeIdent_append k ('=' :: (parse_arg v ++ [')'])) hid (by
          intro c2 hc2
          simp only [List.head?_cons, Option.some.injEq] at hc2
          subst hc2; decide)
        have hlenk := isIdent_length k hid
        have hlenpiece : (pieceOf (Sum.inr (k, v))).length =
            k.length + 1 + (parse_arg v).length := by
          rw [hpiece]; simp only [List.length_append, List.length_cons]; omega
        -- parse the rendered value
        have hval : ∃ w, parseLit f (parse_arg v ++ [')']) = some (w, [')']) := by
          cases v with
          | VStr s =>
            have hall := topStrOk_all s hvok
            cases f with
            | zero =>
              exfalso
              rw [hlenpiece] at hfuel
              simp only [parse_arg, List.length_cons, List.length_append,
                List.length_nil] at hfuel
              omega
            | succ f2 =>
              refine ⟨Value.VStr s, ?_⟩
              show parseLit (f2 + 1) (('\'' :: (s ++ ['\''])) ++ [')']) = _
              rw [List.cons_append, parseLit.eq_2, skipWs_cons_of_not_space _ _ (by decide)]
              simp only [show (decide ('\'' = '\'') || decide ('\'' = '"')) = true by decide,
                if_true]
              rw [List.append_assoc, List.singleton_append,
                parseStrContent_plain '\'' (Or.inl rfl) s [')'] hall]
              simp only [decide_True, Bool.true_or, if_pos rfl, if_true]
          | VInt i =>
            have hfv : fuelNeed (Value.VInt i) ≤ f := by
              have := fuelNeed_le_repr (Value.VInt i)
              rw [hlenpiece] at hfuel
              simp only [parse_arg] at hfuel ⊢
              omega
            exact (parseMain f).1 (Value.VInt i) [')'] hfv (by decide)
          | VFloat m s =>
            have hfv : fuelNeed (Value.VFloat m s) ≤ f := by
              have := fuelNeed_le_repr (Value.VFloat m s)
              rw [hlenpiece] at hfuel
              simp only [parse_arg] at hfuel ⊢
              omega
            exact (parseMain f).1 (Value.VFloat m s) [')'] hfv (by decide)
          | VBool b =>
            have hfv : fuelNeed (Value.VBool b) ≤ f := by
              have := fuelNeed_le_repr (Value.VBool b)
              rw [hlenpiece] at hfuel
              simp only [parse_arg] at hfuel ⊢
              omega
            exact (parseMain f).1 (Value.VBool b) [')'] hfv (by decide)
          | VNone =>
            have hfv : fuelNeed Value.VNone ≤ f := by
              have := fuelNeed_le_repr Value.VNone
              rw [hlenpiece] at hfuel
              simp only [parse_arg] at hfuel ⊢
              omega
            exact (parseMain f).1 Value.VNone [')'] hfv (by decide)
          | VList vs =>
            have hfv : fuelNeed (Value.VList vs) ≤ f := by
              have := fuelNeed_le_repr (Value.VList vs)
              rw [hlenpiece] at hfuel
              simp only [parse_arg] at hfuel ⊢
              omega
            exact (parseMain f).1 (Value.VList vs) [')'] hfv (by decide)
          | VTuple vs =>
            have hfv : fuelNeed (Value.VTuple vs) ≤ f := by
              have := fuelNeed_le_repr (Value.VTuple vs)
              rw [hlenpiece] at hfuel
              simp only [parse_arg] at hfuel ⊢
              omega
            exact (parseMain f).1 (Value.VTuple vs) [')'] hfv (by decide)
          | VDict ps =>
            have hfv : fuelNeed (Value.VDict ps) ≤ f := by
              have := fuelNeed_le_repr (Value.VDict ps)
              rw [hlenpiece] at hfuel
              simp only [parse_arg] at hfuel ⊢
              omega
            exact (parseMain f).1 (Value.VDict ps) [')'] hfv (by decide)
        obtain ⟨w, hw⟩ := hval
        refine ⟨[Sum.inr (k, w)], ?_⟩
        show parseCallArgs (f + 1) ((k ++ '=' :: parse_arg v) ++ [')']) = _
        rw [List.append_assoc, List.cons_append, parseCallArgs.eq_2, hp, List.cons_append,
          skipWs_cons_of_not_space _ _ (identStart_not_space c hcs)]
        simp only [if_neg (identStart_ne c ')' hcs (by decide))]
        rw [← List.cons_append, ← hp]
        simp only [hti]
        rw [skipWs_cons_of_not_space '=' _ (by decide)]
        simp only [if_pos rfl, if_true]
        simp only [hw]
        rw [skipWs_cons_of_not_space ')' _ (by decide)]
        simp only [if_neg (show ¬(')' = ',') by decide), if_pos rfl, if_true]
    | cons b more =>
      -- a separator follows the piece
      have hsj : sepJoin ((a :: b :: more).map pieceOf) =
          pieceOf a ++ ',' :: ' ' :: sepJoin ((b :: more).map pieceOf) := rfl
      rw [hsj] at hfuel ⊢
      have hlen2 : (sepJoin ((b :: more).map pieceOf)).length + 1 +
          (pieceOf a).length + 2 ≤ fuel := by
        rw [List.length_append] at hfuel
        simp only [List.length_cons] at hfuel
        omega
      cases fuel with
      | zero => omega
      | succ f =>
      have hih := ih f hoks (by omega)
      obtain ⟨args2, hargs2⟩ := hih
      cases a with
      | inl p =>
        have hid : isIdent p = true := hoka
        obtain ⟨c, cs, hp, hcs⟩ := isIdent_head p hid
        have hplen := isIdent_length p hid
        have hti := takeIdent_append p
          (',' :: ' ' :: (sepJoin ((b :: more).map pieceOf) ++ [')'])) hid (by
          intro c2 hc2
          simp only [List.head?_cons, Option.some.injEq] at hc2
          subst hc2; decide)
        refine ⟨Sum.inl p :: args2, ?_⟩
        show parseCallArgs (f + 1)
            ((p ++ ',' :: ' ' :: sepJoin ((b :: more).map pieceOf)) ++ [')']) = _
        rw [List.append_assoc, List.cons_append, List.cons_append, parseCallArgs.eq_2, hp,
          List.cons_append, skipWs_cons_of_not_space _ _ (identStart_not_space c hcs)]
        simp only [if_neg (identStart_ne c ')' hcs (by decide))]
        rw [← List.cons_append, ← hp]
        simp only [hti]
        rw [skipWs_cons_of_not_space ',' _ (by decide)]
        simp only [if_neg (show ¬(',' = '=') by decide), if_pos rfl, if_true]
        rw [parseCallArgs_cons_space, hargs2]
      | inr kv =>
        obtain ⟨k, v⟩ := kv
        simp only [argOk, Bool.and_eq_true] at hoka
        obtain ⟨hid, hvok⟩ := hoka
        obtain ⟨c, cs, hp, hcs⟩ := isIdent_head k hid
        have hlenk := isIdent_length k hid
        have hpiece : pieceOf (Sum.inr (k, v)) = k ++ '=' :: parse_arg v := rfl
        have hlenpiece : (pieceOf (Sum.inr (k, v))).length =
            k.length + 1 + (parse_arg v).length := by
          rw [hpiece]; simp only [List.length_append, List.length_cons]; omega
        have hti := takeIdent_append k ('=' :: (parse_arg v ++
          (',' :: ' ' :: (sepJoin ((b :: more).map pieceOf) ++ [')'])))) hid (by
          intro c2 hc2
          simp only [List.head?_cons, Option.some.injEq] at hc2
          subst hc2; decide)
        have hval : ∃ w, parseLit f (parse_arg v ++
            (',' :: ' ' :: (sepJoin ((b :: more).map pieceOf) ++ [')']))) =
            some (w, ',' :: ' ' :: (sepJoin ((b :: more).map pieceOf) ++ [')'])) := by
          cases v with
          | VStr s =>
            have hall := topStrOk_all s hvok
            cases f with
            | zero =>
              exfalso
              rw [hlenpiece] at hlen2
              simp only [parse_arg, List.length_cons, List.length_append,
                List.length_nil] at hlen2
              omega
            | succ f2 =>
              refine ⟨Value.VStr s, ?_⟩
              show parseLit (f2 + 1) (('\'' :: (s ++ ['\''])) ++ _) = _
              rw [List.cons_append, parseLit.eq_2, skipWs_cons_of_not_space _ _ (by decide)]
              simp only [show (decide ('\'' = '\'') || decide ('\'' = '"')) = true by decide,
                if_true]
              rw [List.append_assoc, List.singleton_append,
                parseStrContent_plain '\'' (Or.inl rfl) s _ hall]
              simp only [decide_True, Bool.true_or, if_pos rfl, if_true]
          | VInt i =>
            have hfv : fuelNeed (Value.VInt i) ≤ f := by
              have := fuelNeed_le_repr (Value.VInt i)
              rw [hlenpiece] at hlen2
              simp only [parse_arg] at hlen2 ⊢
              omega
            exact (parseMain f).1 (Value.VInt i) _ hfv rfl
          | VFloat m s =>
            have hfv : fuelNeed (Value.VFloat m s) ≤ f := by
              have := fuelNeed_le_repr (Value.VFloat m s)
              rw [hlenpiece] at hlen2
              simp only [parse_arg] at hlen2 ⊢
              omega
            exact (parseMain f).1 (Value.VFloat m s) _ hfv rfl
          | VBool b2 =>
            have hfv : fuelNeed (Value.VBool b2) ≤ f := by
              have := fuelNeed_le_repr (Value.VBool b2)
              rw [hlenpiece] at hlen2
              simp only [parse_arg] at hlen2 ⊢
              omega
            exact (parseMain f).1 (Value.VBool b2) _ hfv rfl
          | VNone =>
            have hfv : fuelNeed Value.VNone ≤ f := by
              have := fuelNeed_le_repr Value.VNone
              rw [hlenpiece] at hlen2
              simp only [parse_arg] at hlen2 ⊢
              omega
            exact (parseMain f).1 Value.VNone _ hfv rfl
          | VList vs =>
            have hfv : fuelNeed (Value.VList vs) ≤ f := by
              have := fuelNeed_le_repr (Value.VList vs)
              rw [hlenpiece] at hlen2
              simp only [parse_arg] at hlen2 ⊢
              omega
            exact (parseMain f).1 (Value.VList vs) _ hfv rfl
          | VTuple vs =>
            have hfv : fuelNeed (Value.VTuple vs) ≤ f := by
              have := fuelNeed_le_repr (Value.VTuple vs)
              rw [hlenpiece] at hlen2
              simp only [parse_arg] at hlen2 ⊢
              omega
            exact (parseMain f).1 (Value.VTuple vs) _ hfv rfl
          | VDict ps =>
            have hfv : fuelNeed (Value.VDict ps) ≤ f := by
              have := fuelNeed_le_repr (Value.VDict ps)
              rw [hlenpiece] at hlen2
              simp only [parse_arg] at hlen2 ⊢
              omega
            exact (parseMain f).1 (Value.VDict ps) _ hfv rfl
        obtain ⟨w, hw⟩ := hval
        refine ⟨Sum.inr (k, w) :: args2, ?_⟩
        show parseCallArgs (f + 1)
            (((k ++ '=' :: parse_arg v) ++ ',' :: ' ' :: sepJoin ((b :: more).map pieceOf)) ++
              [')']) = _
        rw [List.append_assoc, List.append_assoc, List.cons_append, parseCallArgs.eq_2, hp,
          List.cons_append, skipWs_cons_of_not_space _ _ (identStart_not_space c hcs)]
        simp only [if_neg (identStart_ne c ')' hcs (by decide))]
        rw [← List.cons_append, ← hp]
        rw [List.cons_append, List.cons_append]
        simp only [hti]
        rw [skipWs_cons_of_not_space '=' _ (by decide)]
        simp only [if_pos rfl, if_true]
        simp only [hw]
        rw [skipWs_cons_of_not_space ',' _ (by decide)]
        simp only [if_pos rfl, if_true]
        rw [parseCallArgs_cons_space, hargs2]

theorem stripTrailingSep_concat (X : List Char) :
    stripTrailingSep (X ++ ',' :: [' ']) = X := by
  have hc : ((X ++ ',' :: [' ']).reverse.take 2) = [' ', ','] := by
    rw [List.reverse_append]
    simp
  rw [stripTrailingSep, if_pos hc, show X ++ ',' :: [' '] = (X ++ [',']) ++ [' '] by simp,
    List.dropLast_concat, List.dropLast_concat]

theorem flatten_sep_eq : ∀ (ps : List (List Char)), ps ≠ [] →
    (ps.map fun p => p ++ ',' :: [' ']).flatten = sepJoin ps ++ ',' :: [' '] := by
  intro ps
  induction ps with
  | nil => intro h; exact absurd rfl h
  | cons p rest ih =>
    intro _
    cases rest with
    | nil => simp [sepJoin]
    | cons q ps2 =>
      rw [List.map_cons, List.flatten_cons, ih (by simp)]
      rw [show sepJoin (p :: q :: ps2) = p ++ ',' :: ' ' :: sepJoin (q :: ps2) from rfl]
      simp [List.append_assoc]

theorem pieces_flatten (args : List Arg) (m : List (List Char × Value)) :
    (args.map (specEmit m)).flatten ++
      ((m.filter fun kv => !(decide (kv.1 ∈ kwNames args))).map specAppendPiece).flatten =
      ((effectiveArgs args m).map fun a => pieceOf a ++ ',' :: [' ']).flatten := by
  rw [effectiveArgs, List.map_append, List.flatten_append]
  congr 1
  · rw [List.map_map]
    refine congrArg List.flatten (List.map_congr_left ?_)
    intro a _
    obtain p | ⟨k, v⟩ := a
    · rfl
    · simp only [specEmit]
      cases hl : List.lookup k m with
      | none => simp [hl, pieceOf, Function.comp, List.append_assoc]
      | some w => simp [hl, pieceOf, Function.comp, List.append_assoc]
  · rw [List.map_map]
    refine congrArg List.flatten (List.map_congr_left ?_)
    intro kv _
    obtain ⟨k, v⟩ := kv
    simp [specAppendPiece, pieceOf, Function.comp, List.append_assoc]

/-- `transform_args` is the `", "`-join of the pieces of the effective
argument list (originals with overrides substituted, then appended
mapping entries). -/
theorem transform_eq_sepJoin (args : List Arg) (m : List (List Char × Value)) :
    transform_args args m = sepJoin ((effectiveArgs args m).map pieceOf) := by
  show (match transformLoop1 m args [] [] with
    | (out, seen) => stripTrailingSep (transformLoop2 seen m out)) = _
  rw [transformLoop1_eq]
  show stripTrailingSep
      (transformLoop2 (specSeen m args ++ []) m ([] ++ (args.map (specEmit m)).flatten)) = _
  rw [List.append_nil, List.nil_append, transformLoop2_eq, filter_seen_eq, pieces_flatten]
  rw [show ((effectiveArgs args m).map fun a => pieceOf a ++ ',' :: [' ']) =
      (((effectiveArgs args m).map pieceOf).map fun p => p ++ ',' :: [' ']) by
    rw [List.map_map]
    rfl]
  cases he : (effectiveArgs args m).map pieceOf with
  | nil => rfl
  | cons p ps =>
    rw [flatten_sep_eq (p :: ps) (by simp), stripTrailingSep_concat]

theorem lookup_mem (k : List Char) (w : Value) :
    ∀ (m : List (List Char × Value)), List.lookup k m = some w → (k, w) ∈ m := by
  intro m
  induction m with
  | nil => intro h; simp [List.lookup] at h
  | cons kv rest ih =>
    intro h
    obtain ⟨k1, v1⟩ := kv
    by_cases hk : k = k1
    · subst hk
      simp [List.lookup] at h
      rw [← h]
      exact List.mem_cons_self _ _
    · have hb : (k == k1) = false := by simp [hk]
      simp [List.lookup, hb] at h
      exact List.mem_cons_of_mem _ (ih h)

/-- Wellformedness is preserved by override substitution and append: every
effective argument is wellformed when the originals and the mapping are. -/
theorem effectiveArgs_all_ok (args : List Arg) (m : List (List Char × Value))
    (hargs : args.all argOk = true)
    (hm : (m.all fun kv => isIdent kv.1 && topStrOk kv.2) = true) :
    (effectiveArgs args m).all argOk = true := by
  rw [effectiveArgs, List.all_append, Bool.and_eq_true]
  rw [List.all_eq_true] at hargs hm
  constructor
  · rw [List.all_eq_true]
    intro a ha
    rw [List.mem_map] at ha
    obtain ⟨b, hb, hba⟩ := ha
    have hbo := hargs b hb
    subst hba
    obtain p | ⟨k, v⟩ := b
    · exact hbo
    · simp only [argOk, Bool.and_eq_true] at hbo
      show argOk (match List.lookup k m with
        | some w => Sum.inr (k, w)
        | none => Sum.inr (k, v)) = true
      cases hl : List.lookup k m with
      | none => simp [argOk, hbo.1, hbo.2]
      | some w =>
        have hmem := lookup_mem k w m hl
        have h2 := hm (k, w) hmem
        simp only [Bool.and_eq_true] at h2
        simp [argOk, hbo.1, h2.2]
  · rw [List.all_eq_true]
    intro a ha
    rw [List.mem_map] at ha
    obtain ⟨kv, hkv, hkva⟩ := ha
    have hkvm : kv ∈ m := List.mem_of_mem_filter hkv
    have := hm kv hkvm
    subst hkva
    obtain ⟨k, v⟩ := kv
    exact this

/-- C6 counterexample: a string-typed value containing a single quote is
rendered by the unescaped single-quote wrapping of `parse_arg` as
`a='''`, which is not syntactically a valid call's argument list —
whether the value comes from the override mapping
(`transform_args([], {"a": "'"})`) or from an original keyword argument
(`transform_args([("a", "'")], {})`). -/
theorem claim_C6_counterexample :
    (transform_args [] [("a".toList, Value.VStr ['\''])] = "a='''".toList ∧
      isValidArgList (transform_args [] [("a".toList, Value.VStr ['\''])]) = false) ∧
    (transform_args [Sum.inr ("a".toList, Value.VStr ['\''])] [] = "a='''".toList ∧
      isValidArgList (transform_args [Sum.inr ("a".toList, Value.VStr ['\''])] []) = false) := by
  refine ⟨⟨rfl, rfl⟩, rfl, rfl⟩

/-- C6: the validity guarantee holds on the wellformed domain — whenever
positional arguments and keyword names are identifiers and every
string-typed value, original keyword values and override-mapping values
alike, contains no single quote, backslash, newline or carriage return,
the string returned by `transform_args` is syntactically a valid call's
argument list (it parses as the arguments of `f(...)`); string-typed
values are rendered with surrounding single quotes and other value types
via their literal textual form.  The unconditional claim is false: see
`claim_C6_counterexample`. -/
theorem claim_C6 :
    (∀ (args : List Arg) (m : List (List Char × Value)),
        args.all argOk = true →
        (m.all fun kv => isIdent kv.1 && topStrOk kv.2) = true →
        isValidArgList (transform_args args m) = true) ∧
    (∀ s, parse_arg (Value.VStr s) = '\'' :: s ++ ['\'']) ∧
    (∀ v, isStrVal v = false → parse_arg v = pyRepr v) := by
  refine ⟨?_, fun s => rfl, ?_⟩
  · intro args m hargs hm
    have hitems := effectiveArgs_all_ok args m hargs hm
    obtain ⟨args2, hargs2⟩ := parseCallArgs_items (effectiveArgs args m)
      ((sepJoin ((effectiveArgs args m).map pieceOf) ++ [')']).length + 1) hitems
      (by simp only [List.length_append, List.length_cons, List.length_nil]; omega)
    rw [transform_eq_sepJoin, isValidArgList]
    rw [List.cons_append, List.cons_append]
    have ht : takeIdent (skipWs
        ('f' :: ('(' :: (sepJoin ((effectiveArgs args m).map pieceOf) ++ [')'])))) =
        some (['f'], '(' :: (sepJoin ((effectiveArgs args m).map pieceOf) ++ [')'])) := by
      rw [skipWs_cons_of_not_space 'f' _ (by decide)]
      exact takeIdent_append ['f']
        ('(' :: (sepJoin ((effectiveArgs args m).map pieceOf) ++ [')'])) (by decide) (by
          intro c hc
          simp only [List.head?_cons, Option.some.injEq] at hc
          subst hc; decide)
    simp only [parse_function_call, ht]
    rw [skipWs_cons_of_not_space '(' _ (by decide)]
    simp only [if_pos rfl, if_true]
    simp only [hargs2]
    simp only [show ((skipWs ([] : List Char)).isEmpty) = true from rfl, if_pos rfl, if_true,
      Except.isOk, Except.toBool]
  · intro v hv
    cases v with
    | VStr s => simp [isStrVal] at hv
    | VInt i => rfl
    | VFloat m s => rfl
    | VBool b => rfl
    | VNone => rfl
    | VList vs => rfl
    | VTuple vs => rfl
    | VDict ps => rfl

/-- Witness for `claim_C6`: the wellformed-domain validity statement at a
concrete input. -/
theorem claim_C6_witness :
    isValidArgList (transform_args [Sum.inl "x".toList]
      [("a".toList, Value.VStr "b".toList)]) = true :=
  claim_C6.1 [Sum.inl "x".toList] [("a".toList, Value.VStr "b".toList)]
    (by decide) (by decide)

end HyperoptUtils
